import Mathlib

/-!
Verification of the research-orchestration pipeline of the
`browser_research` repository: a shallow embedding, in Lean 4, of the
planner (`orchestration/research_planner.py`), the task executor
(`orchestration/task_executor.py`), the knowledge-source registry cache
(`knowledge/source_manager.py`), the navigation utilities and robots
cache (`browser/navigation.py`, together with the parts of CPython's
`urllib.parse` / `urllib.robotparser` they call), and the report
generator (`orchestration/report_generator.py`).

Python dicts that travel through the pipeline are embedded as structures
whose fields mirror the dict keys used by the code; keys that may be
absent are `Option`-valued.  External collaborators (the browser, the
knowledge sources, the language model, the network) are parameters of
the embedded functions: a call that can raise is a parameter returning
`Except String _`.  `async` sequencing is ordinary sequential evaluation;
the inter-step sleeps do not affect any value computed here.
-/

namespace BrowserResearch

/-- The dict returned by `BrowserSession.visit_page`
(`browser/browser_session.py`, lines 356-388): on success the five
keys `url`, `title`, `content` (the extracted page text), `metadata`
and `timestamp`.  Metadata and timestamp are opaque strings/numbers
here; only the key count and the page text matter downstream. -/
structure PageContent where
  url : String
  title : String
  content : String
  metadata : String := ""
  timestamp : Nat := 0
deriving DecidableEq

/-- The value found under an item's `content` key.  Knowledge-source
items carry a text string, but `_execute_web_search`
(`task_executor.py`, lines 151-160) stores `visit_page`'s **whole
dict** under the page record's `content` key: the five-key page dict,
or the one-key `{"error": ...}` dict of a failed visit. -/
inductive ContentVal where
  | str : String → ContentVal
  | page : PageContent → ContentVal
  | errorPage : String → ContentVal
deriving DecidableEq

/-- Python `len()` of a content value: the character count of a
string, the key count of a dict (five for `visit_page`'s page dict,
one for its error dict). -/
def pyLen : ContentVal → Nat
  | .str s => s.length
  | .page _ => 5
  | .errorPage _ => 1

/-- Python truthiness of a content value: a string is falsy iff empty;
both dict shapes here have keys and are truthy. -/
def pyTruthy : ContentVal → Bool
  | .str s => s ≠ ""
  | .page _ => true
  | .errorPage _ => true

/-- A page record / knowledge-source result record: the item dicts stored
in a StepResult's `results` list.  Only the keys the orchestration core
reads are modelled; `summarized` is the key added by the report
generator's pre-summarization pass. -/
structure Item where
  title : Option String := none
  url : Option String := none
  snippet : Option String := none
  content : Option ContentVal := none
  summarized : Option Bool := none
deriving DecidableEq

/-- The outcome dict of executing one step (`task_executor.py`). -/
structure StepResult where
  type : String
  status : String
  error : Option String := none
  searchEngine : Option String := none
  source : Option String := none
  query : Option String := none
  results : List Item := []
  questions : List String := []
deriving DecidableEq

/-- A research-plan step dict as built by `research_planner.py`. -/
structure Step where
  type : String
  searchEngine : Option String := none
  source : Option String := none
  query : Option String := none
  maxResults : Option Nat := none
  basedOn : Option String := none
  status : String := "pending"
deriving DecidableEq

/-- The per-source search terms mapping of a query analysis:
`web_search` maps to a list of terms, `arxiv` and `wikipedia` to a
single term; each key may be absent. -/
structure SearchTerms where
  web_search : Option (List String) := none
  arxiv : Option String := none
  wikipedia : Option String := none
deriving DecidableEq

/-- The structured analysis of a query (the parsed LLM response, or the
deterministic fallback). -/
structure QueryAnalysis where
  main_question : String
  sub_questions : List String
  search_terms : SearchTerms
  priority_order : List String
  requires_followup : Bool
  domain_knowledge : List String
deriving DecidableEq

/-- A research plan: `ResearchPlanner.create_research_plan`'s result. -/
structure ResearchPlan where
  query : String
  analysis : QueryAnalysis
  steps : List Step
deriving DecidableEq

/-- The accumulated results record built by
`TaskExecutor.execute_research_plan`. -/
structure ResearchResults where
  query : String
  results : List StepResult
  status : String
  completed_steps : Nat
  total_steps : Nat
deriving DecidableEq

/-! ## Research planner (`orchestration/research_planner.py`) -/

/-- The deterministic fallback analysis substituted when the LLM
response fails to parse as JSON (`analyze_query`, lines 74-81). -/
def fallbackAnalysis (q : String) : QueryAnalysis :=
  { main_question := q
    sub_questions := [q]
    search_terms := { web_search := some [q] }
    priority_order := ["web_search"]
    requires_followup := false
    domain_knowledge := [] }

/-- `ResearchPlanner.analyze_query`: the LLM call and the JSON parse are
external, so the function is parameterized by the parse outcome
(`parseJson response`); on parse failure the fallback analysis is
returned. -/
def analyzeQuery (parseJson : String → Option QueryAnalysis)
    (response : String) (q : String) : QueryAnalysis :=
  match parseJson response with
  | some a => a
  | none => fallbackAnalysis q

/-- A `web_search` step as appended by `create_research_plan`. -/
def webSearchStep (term : String) : Step :=
  { type := "web_search", searchEngine := some "google", query := some term
    maxResults := some 5, status := "pending" }

/-- A `knowledge_source` step as appended by `create_research_plan`. -/
def knowledgeStep (src term : String) (mr : Nat) : Step :=
  { type := "knowledge_source", source := some src, query := some term
    maxResults := some mr, status := "pending" }

/-- The trailing `generate_followup` step. -/
def followupStep : Step :=
  { type := "generate_followup", basedOn := some "initial_results"
    status := "pending" }

/-- The steps contributed by one entry of `priority_order`
(the if/elif chain of `create_research_plan`, lines 104-134). -/
def stepsForSource (terms : SearchTerms) (source : String) : List Step :=
  if source = "web_search" then
    (terms.web_search.getD []).map webSearchStep
  else if source = "arxiv" then
    match terms.arxiv with
    | some t => [knowledgeStep "arxiv" t 3]
    | none => []
  else if source = "wikipedia" then
    match terms.wikipedia with
    | some t => [knowledgeStep "wikipedia" t 2]
    | none => []
  else []

/-- The step list built by `create_research_plan`: the loop over
`priority_order` appending per-source steps, then the conditional
trailing follow-up step (lines 104-142). -/
def plannerSteps (analysis : QueryAnalysis) : List Step :=
  let base := analysis.priority_order.foldl
    (fun acc source => acc ++ stepsForSource analysis.search_terms source) []
  if analysis.requires_followup then base ++ [followupStep] else base

/-- `ResearchPlanner.create_research_plan`, parameterized like
`analyzeQuery` by the external parse outcome. -/
def createResearchPlan (parseJson : String → Option QueryAnalysis)
    (response : String) (q : String) : ResearchPlan :=
  let analysis := analyzeQuery parseJson response q
  { query := q, analysis := analysis, steps := plannerSteps analysis }

/-! ## Task executor (`orchestration/task_executor.py`) -/

/-- The dispatch performed inside `_execute_step`'s `try` block: the
three step handlers do I/O and may raise, so they are parameters
returning `Except String StepResult`.  An unknown step type yields the
error-status result directly (lines 113-119) without raising. -/
def dispatchStep (ws ks fu : Step → Except String StepResult)
    (step : Step) : Except String StepResult :=
  if step.type = "web_search" then ws step
  else if step.type = "knowledge_source" then ks step
  else if step.type = "generate_followup" then fu step
  else .ok { type := step.type, status := "error"
             error := some ("Unknown step type: " ++ step.type) }

/-- `TaskExecutor._execute_step`: any exception escaping the dispatch is
converted into an error-status StepResult carrying the message
(lines 120-126). -/
def executeStep (ws ks fu : Step → Except String StepResult)
    (step : Step) : StepResult :=
  match dispatchStep ws ks fu step with
  | .ok r => r
  | .error e => { type := step.type, status := "error", error := some e }

/-- `TaskExecutor.execute_research_plan` (lines 48-91): initialize the
results record, process every step in order appending its StepResult
(the step handlers always return non-empty dicts, so the
`if step_result:` guard in the source always takes the append branch)
and incrementing `completed_steps`, then mark the record complete.
The inter-step `asyncio.sleep` affects no computed value. -/
def executeResearchPlan (ws ks fu : Step → Except String StepResult)
    (plan : ResearchPlan) : ResearchResults :=
  let init : ResearchResults :=
    { query := plan.query, results := [], status := "in_progress"
      completed_steps := 0, total_steps := plan.steps.length }
  let afterSteps := plan.steps.foldl
    (fun acc step =>
      { acc with
          results := acc.results ++ [executeStep ws ks fu step]
          completed_steps := acc.completed_steps + 1 })
    init
  { afterSteps with status := "complete" }

/-- Helper: the executor fold appends exactly one StepResult per step. -/
theorem executor_fold_characterization (ws ks fu : Step → Except String StepResult)
    (steps : List Step) (acc : ResearchResults) :
    steps.foldl
      (fun acc step =>
        { acc with
            results := acc.results ++ [executeStep ws ks fu step]
            completed_steps := acc.completed_steps + 1 })
      acc
    = { acc with
          results := acc.results ++ steps.map (executeStep ws ks fu)
          completed_steps := acc.completed_steps + steps.length } := by
  induction steps generalizing acc with
  | nil => simp
  | cons s rest ih =>
      simp only [List.foldl_cons, List.map_cons, List.length_cons]
      rw [ih]
      simp [List.append_assoc]
      omega

/-- Helper: folding `acc ++ f x` over a list is the flattened map. -/
theorem foldl_append_eq_flatten {α β : Type} (f : α → List β) (l : List α) (init : List β) :
    l.foldl (fun acc x => acc ++ f x) init = init ++ (l.map f).flatten := by
  induction l generalizing init with
  | nil => simp
  | cons x rest ih => simp [ih, List.append_assoc]

/-- Helper: closed form of `executeResearchPlan`. -/
theorem executeResearchPlan_eq (ws ks fu : Step → Except String StepResult)
    (plan : ResearchPlan) :
    executeResearchPlan ws ks fu plan =
      { query := plan.query
        results := plan.steps.map (executeStep ws ks fu)
        status := "complete"
        completed_steps := plan.steps.length
        total_steps := plan.steps.length } := by
  simp only [executeResearchPlan, executor_fold_characterization]
  simp

/-- C1: for every research plan (any step tags, any per-step outcomes
including handlers that raise), `execute_research_plan` returns a record
with status `"complete"` and `completed_steps = len(plan.steps)`; every
error raised during dispatch becomes a StepResult with status `"error"`
carrying the message, the loop never aborts early (one result per step),
and the results length never exceeds `total_steps`. -/
theorem executor_always_completes (ws ks fu : Step → Except String StepResult)
    (plan : ResearchPlan) :
    (executeResearchPlan ws ks fu plan).status = "complete" ∧
    (executeResearchPlan ws ks fu plan).completed_steps = plan.steps.length ∧
    (executeResearchPlan ws ks fu plan).results = plan.steps.map (executeStep ws ks fu) ∧
    (executeResearchPlan ws ks fu plan).results.length
      ≤ (executeResearchPlan ws ks fu plan).total_steps ∧
    (∀ step e, dispatchStep ws ks fu step = .error e →
       executeStep ws ks fu step
         = { type := step.type, status := "error", error := some e }) := by
  rw [executeResearchPlan_eq]
  refine ⟨rfl, rfl, rfl, by simp, ?_⟩
  intro step e he
  unfold executeStep
  rw [he]

/-- Concrete handlers and plan exercising the executor: a web-search
handler that always raises, normal knowledge/followup handlers, and a
plan with a raising step, a normal step and an unknown step tag. -/
def wsFail : Step → Except String StepResult := fun _ => .error "boom"

/-- Knowledge-source handler returning a normal complete StepResult. -/
def ksOk : Step → Except String StepResult := fun s =>
  .ok { type := "knowledge_source", status := "complete"
        source := s.source, query := s.query }

/-- Follow-up handler returning a normal complete StepResult. -/
def fuOk : Step → Except String StepResult := fun _ =>
  .ok { type := "generate_followup", status := "complete", questions := ["q1"] }

/-- A three-step plan: raising web search, normal wikipedia query,
unknown step tag. -/
def planC1 : ResearchPlan :=
  { query := "q", analysis := fallbackAnalysis "q"
    steps := [webSearchStep "t1", knowledgeStep "wikipedia" "t2" 2, { type := "bogus" }] }

/-- Witness for `executor_always_completes` at a concrete plan whose
first step's handler raises. -/
theorem executor_always_completes_witness :
    (executeResearchPlan wsFail ksOk fuOk planC1).status = "complete" ∧
    (executeResearchPlan wsFail ksOk fuOk planC1).completed_steps = 3 ∧
    executeStep wsFail ksOk fuOk (webSearchStep "t1")
      = { type := "web_search", status := "error", error := some "boom" } := by
  have h := executor_always_completes wsFail ksOk fuOk planC1
  refine ⟨h.1, ?_, ?_⟩
  · rw [h.2.1]; rfl
  · exact h.2.2.2.2 (webSearchStep "t1") "boom" (by rfl)

/-- C2: `create_research_plan` builds the step list by walking
`priority_order` in order — for `"web_search"` one web-search step per
term with `max_results` 5; for `"arxiv"` / `"wikipedia"` one
knowledge-source step with the single configured term and `max_results`
3 / 2 (no step when the term is absent); any other source name
contributes nothing — and appends one trailing `generate_followup` step
exactly when `requires_followup` is true.  Steps appear in the relative
order of `priority_order`, and within a source in term-list order. -/
theorem planner_step_construction (a : QueryAnalysis) :
    plannerSteps a =
      (a.priority_order.map (fun source =>
        if source = "web_search" then
          (a.search_terms.web_search.getD []).map (fun t =>
            ({ type := "web_search", searchEngine := some "google", query := some t
               maxResults := some 5, status := "pending" } : Step))
        else if source = "arxiv" then
          match a.search_terms.arxiv with
          | some t => [({ type := "knowledge_source", source := some "arxiv"
                          query := some t, maxResults := some 3
                          status := "pending" } : Step)]
          | none => []
        else if source = "wikipedia" then
          match a.search_terms.wikipedia with
          | some t => [({ type := "knowledge_source", source := some "wikipedia"
                          query := some t, maxResults := some 2
                          status := "pending" } : Step)]
          | none => []
        else [])).flatten
      ++ (if a.requires_followup then
            [({ type := "generate_followup", basedOn := some "initial_results"
                status := "pending" } : Step)]
          else []) := by
  unfold plannerSteps
  rw [foldl_append_eq_flatten, List.nil_append]
  have hsrc : (stepsForSource a.search_terms) = (fun source =>
      if source = "web_search" then
        (a.search_terms.web_search.getD []).map (fun t =>
          ({ type := "web_search", searchEngine := some "google", query := some t
             maxResults := some 5, status := "pending" } : Step))
      else if source = "arxiv" then
        match a.search_terms.arxiv with
        | some t => [({ type := "knowledge_source", source := some "arxiv"
                        query := some t, maxResults := some 3
                        status := "pending" } : Step)]
        | none => []
      else if source = "wikipedia" then
        match a.search_terms.wikipedia with
        | some t => [({ type := "knowledge_source", source := some "wikipedia"
                        query := some t, maxResults := some 2
                        status := "pending" } : Step)]
        | none => []
      else []) := by
    funext source
    unfold stepsForSource webSearchStep knowledgeStep
    rfl
  rw [hsrc]
  cases hf : a.requires_followup <;> simp [followupStep]

/-- C3: when the LLM response cannot be parsed as JSON,
`create_research_plan q` returns the deterministic fallback plan:
analysis with `main_question = q`, `sub_questions = [q]`,
`search_terms = {web_search: [q]}`, `priority_order = ["web_search"]`,
`requires_followup = false`, empty `domain_knowledge`, and exactly one
`web_search` step with query `q` and `max_results` 5. -/
theorem planner_fallback (parseJson : String → Option QueryAnalysis)
    (response q : String) (hp : parseJson response = none) :
    createResearchPlan parseJson response q =
      { query := q
        analysis :=
          { main_question := q, sub_questions := [q]
            search_terms := { web_search := some [q] }
            priority_order := ["web_search"], requires_followup := false
            domain_knowledge := [] }
        steps := [{ type := "web_search", searchEngine := some "google"
                    query := some q, maxResults := some 5, status := "pending" }] } := by
  unfold createResearchPlan analyzeQuery
  rw [hp]
  rfl

/-- Witness for `planner_fallback` with a parser that always fails. -/
theorem planner_fallback_witness :
    createResearchPlan (fun _ => none) "not json" "quantum" =
      { query := "quantum"
        analysis :=
          { main_question := "quantum", sub_questions := ["quantum"]
            search_terms := { web_search := some ["quantum"] }
            priority_order := ["web_search"], requires_followup := false
            domain_knowledge := [] }
        steps := [{ type := "web_search", searchEngine := some "google"
                    query := some "quantum", maxResults := some 5
                    status := "pending" }] } :=
  planner_fallback (fun _ => none) "not json" "quantum" rfl

/-! ## Knowledge source registry (`knowledge/source_manager.py`) -/

/-- The configuration slice read by `KnowledgeSourceManager.query` and
`_prune_cache`: the enabled-source list, the cache-enabled flag and the
cache maximum size. -/
structure KnowledgeConfig where
  enabledSources : List String := ["web_search", "wikipedia", "arxiv"]
  cacheEnabled : Bool := false
  cacheMaxSize : Nat := 1000
deriving DecidableEq

/-- The mutable state of a `KnowledgeSourceManager`: the set of
successfully initialized sources and the cache, a Python dict embedded
as an insertion-ordered association list with unique keys. -/
structure KSMState where
  initializedSources : List String
  cache : List (String × List Item)
deriving DecidableEq

/-- The cache key `f"{source}:{query}:{max_results}"` (line 95). -/
def cacheKey (source q : String) (maxResults : Nat) : String :=
  source ++ ":" ++ q ++ ":" ++ toString maxResults

/-- `KnowledgeSourceManager._prune_cache` (lines 119-130): when the
cache exceeds the maximum size, delete the oldest-inserted keys until
back at the limit. -/
def pruneCache (maxSize : Nat) (cache : List (String × List Item)) :
    List (String × List Item) :=
  if cache.length > maxSize then cache.drop (cache.length - maxSize) else cache

/-- `KnowledgeSourceManager.query` (lines 71-117).  The pluggable
source's own query capability is external and may raise, hence the
`sourceQuery` parameter.  Returns the result list and the new state.
On the miss-and-store path the key is known absent, so the dict store
is an append at the back (newest position). -/
def ksmQuery (cfg : KnowledgeConfig)
    (sourceQuery : String → String → Nat → Except String (List Item))
    (st : KSMState) (source q : String) (maxResults : Nat) :
    List Item × KSMState :=
  if source ∈ cfg.enabledSources then
    if source ∈ st.initializedSources then
      match (if cfg.cacheEnabled then st.cache.lookup (cacheKey source q maxResults) else none) with
      | some cached => (cached, st)
      | none =>
        match sourceQuery source q maxResults with
        | .error _ => ([], st)
        | .ok results =>
          if cfg.cacheEnabled then
            (results
            , { st with
                  cache := pruneCache cfg.cacheMaxSize
                    (st.cache ++ [(cacheKey source q maxResults, results)]) })
          else (results, st)
    else ([], st)
  else ([], st)

/-- A sequence of registry query calls, threading the state. -/
def runQueries (cfg : KnowledgeConfig)
    (sourceQuery : String → String → Nat → Except String (List Item))
    (st : KSMState) (calls : List (String × String × Nat)) : KSMState :=
  calls.foldl (fun s c => (ksmQuery cfg sourceQuery s c.1 c.2.1 c.2.2).2) st

/-- The cache entry a successful fresh query stores. -/
def entryOf (sourceQuery : String → String → Nat → Except String (List Item))
    (c : String × String × Nat) : String × List Item :=
  (cacheKey c.1 c.2.1 c.2.2, ((sourceQuery c.1 c.2.1 c.2.2).toOption).getD [])

/-- Helper: a key absent from the key column is not found by `lookup`. -/
theorem lookup_eq_none_of_not_mem_keys {β : Type} (k : String)
    (l : List (String × β)) (h : k ∉ l.map Prod.fst) : l.lookup k = none := by
  induction l with
  | nil => rfl
  | cons p rest ih =>
      obtain ⟨pk, pv⟩ := p
      simp only [List.map_cons, List.mem_cons] at h
      push_neg at h
      have hne : (k == pk) = false := beq_eq_false_iff_ne.mpr h.1
      simp [List.lookup, hne, ih h.2]

/-- Helper: pruning after appending one entry to an already-pruned cache
drops exactly the oldest surplus entry. -/
theorem prune_drop_append (maxSize n : Nat) (L : List (String × List Item))
    (e : String × List Item) (hn : n = L.length) :
    pruneCache maxSize (L.drop (n - maxSize) ++ [e])
      = (L ++ [e]).drop (n + 1 - maxSize) := by
  subst hn
  unfold pruneCache
  rcases Nat.lt_or_ge L.length maxSize with hlt | hge
  · have h0 : L.length - maxSize = 0 := by omega
    have h1 : L.length + 1 - maxSize = 0 := by omega
    have hcond : ¬ ((L ++ [e]).length > maxSize) := by
      simp only [List.length_append, List.length_cons, List.length_nil]
      omega
    rw [h0, h1, List.drop_zero, List.drop_zero, if_neg hcond]
  · rcases Nat.eq_zero_or_pos maxSize with hz | hpos
    · subst hz
      have h5 : L.drop (L.length - 0) = ([] : List (String × List Item)) := by simp
      rw [h5, List.nil_append]
      have hc1 : ([e] : List (String × List Item)).length > 0 := by simp
      rw [if_pos hc1]
      have hd2 : (L ++ [e]).drop (L.length + 1 - 0) = [] :=
        List.drop_eq_nil_of_le (by simp)
      rw [hd2]
      simp
    · have hlen : (L.drop (L.length - maxSize) ++ [e]).length = maxSize + 1 := by
        simp only [List.length_append, List.length_drop, List.length_cons,
          List.length_nil]
        omega
      have hgt : (L.drop (L.length - maxSize) ++ [e]).length > maxSize := by
        rw [hlen]; omega
      rw [if_pos hgt]
      rw [hlen]
      have h2 : maxSize + 1 - maxSize = 1 := by omega
      rw [h2]
      rw [List.drop_append_eq_append_drop, List.drop_append_eq_append_drop]
      have h3 : 1 - (L.drop (L.length - maxSize)).length = 0 := by
        simp only [List.length_drop]; omega
      have h4 : L.length + 1 - maxSize - L.length = 0 := by omega
      rw [h3, h4]
      simp only [List.drop_zero]
      congr 1
      rw [List.drop_drop]
      congr 1
      omega

/-- Helper: `ksmQuery` leaves `initializedSources` unchanged. -/
theorem ksmQuery_initialized (cfg : KnowledgeConfig)
    (sourceQuery : String → String → Nat → Except String (List Item))
    (st : KSMState) (source q : String) (maxResults : Nat) :
    (ksmQuery cfg sourceQuery st source q maxResults).2.initializedSources
      = st.initializedSources := by
  unfold ksmQuery
  repeat' split
  all_goals rfl

/-- Helper: the cache after a run over fresh, successful, enabled calls
is the suffix of the inserted-entry list that fits the maximum size. -/
theorem runQueries_cache_drop (cfg : KnowledgeConfig)
    (sourceQuery : String → String → Nat → Except String (List Item))
    (hen : cfg.cacheEnabled = true) :
    ∀ (calls done : List (String × String × Nat)) (st : KSMState),
    st.cache = (done.map (entryOf sourceQuery)).drop
      (done.length - cfg.cacheMaxSize) →
    ((done ++ calls).map (fun c => cacheKey c.1 c.2.1 c.2.2)).Nodup →
    (∀ c ∈ calls, c.1 ∈ cfg.enabledSources ∧ c.1 ∈ st.initializedSources ∧
      (sourceQuery c.1 c.2.1 c.2.2).isOk) →
    (runQueries cfg sourceQuery st calls).cache
      = ((done ++ calls).map (entryOf sourceQuery)).drop
          ((done ++ calls).length - cfg.cacheMaxSize) := by
  intro calls
  induction calls with
  | nil =>
      intro done st hcache _ _
      simpa [runQueries] using hcache
  | cons c rest ih =>
      intro done st hcache hnodup hcalls
      obtain ⟨hc1, hc2, hc3⟩ := hcalls c (by simp)
      have hkeyfresh : cacheKey c.1 c.2.1 c.2.2
          ∉ done.map (fun d => cacheKey d.1 d.2.1 d.2.2) := by
        intro hmem
        have hnot : ¬ ((done ++ c :: rest).map
            (fun d => cacheKey d.1 d.2.1 d.2.2)).Nodup := by
          simp only [List.map_append, List.map_cons]
          intro hnd
          exact (List.nodup_append.mp hnd).2.2 hmem (by simp)
        exact hnot hnodup
      have hlookup : st.cache.lookup (cacheKey c.1 c.2.1 c.2.2) = none := by
        apply lookup_eq_none_of_not_mem_keys
        rw [hcache]
        intro hmem
        obtain ⟨p, hp, hpk⟩ := List.mem_map.mp hmem
        have hp2 : p ∈ done.map (entryOf sourceQuery) := List.mem_of_mem_drop hp
        obtain ⟨d0, hd0, hd0e⟩ := List.mem_map.mp hp2
        apply hkeyfresh
        rw [← hpk, ← hd0e]
        exact List.mem_map.mpr ⟨d0, hd0, rfl⟩
      obtain ⟨v, hv⟩ : ∃ v, sourceQuery c.1 c.2.1 c.2.2 = .ok v := by
        cases hsq : sourceQuery c.1 c.2.1 c.2.2 with
        | ok v => exact ⟨v, rfl⟩
        | error e => rw [hsq] at hc3; simp [Except.isOk, Except.toBool] at hc3
      have hquery : (ksmQuery cfg sourceQuery st c.1 c.2.1 c.2.2).2.cache
          = pruneCache cfg.cacheMaxSize
              (st.cache ++ [(cacheKey c.1 c.2.1 c.2.2, v)]) := by
        unfold ksmQuery
        rw [if_pos hc1, if_pos hc2, hen]
        simp only [if_true]
        rw [hlookup, hv]
      have hev : (cacheKey c.1 c.2.1 c.2.2, v) = entryOf sourceQuery c := by
        unfold entryOf
        rw [hv]
        rfl
      have hstep : (ksmQuery cfg sourceQuery st c.1 c.2.1 c.2.2).2.cache
          = ((done ++ [c]).map (entryOf sourceQuery)).drop
              ((done ++ [c]).length - cfg.cacheMaxSize) := by
        rw [hquery, hcache,
          prune_drop_append cfg.cacheMaxSize done.length _ _ (by simp), hev]
        simp [List.map_append, List.length_append]
      have hres : runQueries cfg sourceQuery st (c :: rest)
          = runQueries cfg sourceQuery
              (ksmQuery cfg sourceQuery st c.1 c.2.1 c.2.2).2 rest := by
        rfl
      rw [hres]
      have hmain := ih (done ++ [c]) (ksmQuery cfg sourceQuery st c.1 c.2.1 c.2.2).2
        hstep
        (by simpa using hnodup)
        (by
          intro d hd
          obtain ⟨hd1, hd2, hd3⟩ := hcalls d (by simp [hd])
          refine ⟨hd1, ?_, hd3⟩
          rw [ksmQuery_initialized]
          exact hd2)
      simpa using hmain

/-- Helper: the length of a pruned cache. -/
theorem pruneCache_length (maxSize : Nat) (cache : List (String × List Item)) :
    (pruneCache maxSize cache).length = min maxSize cache.length := by
  unfold pruneCache
  split
  next h => simp only [List.length_drop]; omega
  next h => simp only [not_lt] at h; omega

/-- Helper: one registry query keeps the cache within the maximum size. -/
theorem ksmQuery_cache_length_le (cfg : KnowledgeConfig)
    (sq : String → String → Nat → Except String (List Item))
    (st : KSMState) (source q : String) (mr : Nat)
    (h : st.cache.length ≤ cfg.cacheMaxSize) :
    (ksmQuery cfg sq st source q mr).2.cache.length ≤ cfg.cacheMaxSize := by
  unfold ksmQuery
  repeat' split
  all_goals first
    | exact h
    | (simp [pruneCache_length]; try omega)

/-- Helper: any run of registry queries keeps the cache within the
maximum size. -/
theorem runQueries_cache_length_le (cfg : KnowledgeConfig)
    (sq : String → String → Nat → Except String (List Item)) :
    ∀ (calls : List (String × String × Nat)) (st : KSMState),
      st.cache.length ≤ cfg.cacheMaxSize →
      (runQueries cfg sq st calls).cache.length ≤ cfg.cacheMaxSize := by
  intro calls
  induction calls with
  | nil => intro st h; simpa [runQueries] using h
  | cons c rest ih =>
      intro st h
      have h1 := ksmQuery_cache_length_le cfg sq st c.1 c.2.1 c.2.2 h
      have hr : runQueries cfg sq st (c :: rest)
          = runQueries cfg sq (ksmQuery cfg sq st c.1 c.2.1 c.2.2).2 rest := rfl
      rw [hr]
      exact ih _ h1

/-- C4: with caching enabled and a configured maximum size, after any
sequence of registry query calls the cache holds at most `max_size`
entries (starting within the bound); and inserting `max_size + K`
distinct `(source, query, max_results)` keys (all fresh misses with
successful source queries) leaves exactly the `max_size` newest entries:
the evicted keys are exactly the `K` oldest-inserted ones (insertion
order, not access order). -/
theorem cache_bounded_and_insertion_order_eviction (cfg : KnowledgeConfig)
    (sq : String → String → Nat → Except String (List Item))
    (st0 : KSMState) (calls : List (String × String × Nat))
    (hen : cfg.cacheEnabled = true)
    (hempty : st0.cache = [])
    (hok : ∀ c ∈ calls, c.1 ∈ cfg.enabledSources ∧ c.1 ∈ st0.initializedSources ∧
      (sq c.1 c.2.1 c.2.2).isOk)
    (hkeys : (calls.map (fun c => cacheKey c.1 c.2.1 c.2.2)).Nodup) :
    (∀ (calls2 : List (String × String × Nat)) (st : KSMState),
        st.cache.length ≤ cfg.cacheMaxSize →
        (runQueries cfg sq st calls2).cache.length ≤ cfg.cacheMaxSize) ∧
    (runQueries cfg sq st0 calls).cache
      = (calls.map (entryOf sq)).drop (calls.length - cfg.cacheMaxSize) ∧
    (cfg.cacheMaxSize ≤ calls.length →
      (runQueries cfg sq st0 calls).cache.length = cfg.cacheMaxSize) := by
  have hmain := runQueries_cache_drop cfg sq hen calls [] st0
    (by simpa using hempty) (by simpa using hkeys) hok
  have hmain2 : (runQueries cfg sq st0 calls).cache
      = (calls.map (entryOf sq)).drop (calls.length - cfg.cacheMaxSize) := by
    simpa using hmain
  refine ⟨runQueries_cache_length_le cfg sq, hmain2, ?_⟩
  intro hle
  rw [hmain2]
  simp only [List.length_drop, List.length_map]
  omega

/-- Concrete registry configuration for the eviction witness: cache
enabled with maximum size 2 and one enabled source. -/
def cfgW : KnowledgeConfig :=
  { enabledSources := ["wikipedia"], cacheEnabled := true, cacheMaxSize := 2 }

/-- Concrete source-query capability for the witness: always succeeds
with one item echoing the query. -/
def sqW : String → String → Nat → Except String (List Item) :=
  fun _ q _ => .ok [{ title := some q }]

/-- Initial registry state for the witness. -/
def st0W : KSMState := { initializedSources := ["wikipedia"], cache := [] }

/-- Three distinct calls against a size-2 cache: one eviction. -/
def callsW : List (String × String × Nat) :=
  [("wikipedia", "a", 1), ("wikipedia", "b", 1), ("wikipedia", "c", 1)]

/-- Witness for `cache_bounded_and_insertion_order_eviction`: inserting
3 distinct keys into a size-2 cache leaves the 2 newest entries; the
oldest key `wikipedia:a:1` is the one evicted. -/
theorem cache_eviction_witness :
    (runQueries cfgW sqW st0W callsW).cache
      = [("wikipedia:b:1", [{ title := some "b" }])
        , ("wikipedia:c:1", [{ title := some "c" }])] ∧
    (runQueries cfgW sqW st0W callsW).cache.length = 2 := by
  have h := cache_bounded_and_insertion_order_eviction cfgW sqW st0W callsW
    rfl rfl (by decide) (by decide)
  refine ⟨?_, h.2.2 (by decide)⟩
  rw [h.2.1]
  rfl

/-! ## Report generator (`orchestration/report_generator.py`) -/

/-- The structure built by `_summarize_research_results` (lines 99-103):
a fresh dict carrying only the `query`, `status` and `results` keys of
the input record. -/
structure SummarizedResults where
  query : String
  status : String
  results : List StepResult
deriving DecidableEq

/-- Per-item pre-summarization (the body of both inner loops of
`_summarize_research_results`, lines 111-123 and 130-142): when the
`content` key is present, its value truthy, and `len()` of that value
exceeds 800, the content is replaced by the LLM summary (`max_length`
500, focus "key facts and insights") and the item gains
`summarized: true`; every other item passes through unchanged.  For
web-search items the stored value is `visit_page`'s dict, so `len()`
is its key count (5, or 1 for the error dict) and the branch never
fires, no matter how long the page text is. -/
def summarizeItem (summarize : ContentVal → Nat → String → String)
    (item : Item) : Item :=
  match item.content with
  | some c =>
      if pyTruthy c = true ∧ pyLen c > 800 then
        { item with
            content := some (.str (summarize c 500 "key facts and insights"))
            summarized := some true }
      else item
  | none => item

/-- Per-StepResult pre-summarization: `web_search` and
`knowledge_source` results get their item lists rewritten; any other
step type passes through unchanged. -/
def summarizeStep (summarize : ContentVal → Nat → String → String)
    (sr : StepResult) : StepResult :=
  if sr.type = "web_search" then
    { sr with results := sr.results.map (summarizeItem summarize) }
  else if sr.type = "knowledge_source" then
    { sr with results := sr.results.map (summarizeItem summarize) }
  else sr

/-- `ReportGenerator._summarize_research_results` (lines 87-148). -/
def summarizeResearchResults (summarize : ContentVal → Nat → String → String)
    (rr : ResearchResults) : SummarizedResults :=
  { query := rr.query
    status := rr.status
    results := rr.results.map (summarizeStep summarize) }

/-- The structure serialized into the synthesis prompt. -/
inductive PromptPayload
  | full (rr : ResearchResults)
  | condensed (s : SummarizedResults)
deriving DecidableEq

/-- The branch of `generate_report` (lines 41-46) choosing what is
serialized into the prompt: the whole record, or — when
`len(json.dumps(research_results, indent=2))` exceeds 6000 — the
pre-summarized structure.  `dumpsR` embeds the external
`json.dumps(·, indent=2)` serializer. -/
def reportPayload (dumpsR : ResearchResults → String)
    (summarize : ContentVal → Nat → String → String)
    (rr : ResearchResults) : PromptPayload :=
  if (dumpsR rr).length > 6000 then
    .condensed (summarizeResearchResults summarize rr)
  else .full rr

/-- Serialization of the chosen payload (`json.dumps` again on the
summarized structure, line 46). -/
def renderPayload (dumpsR : ResearchResults → String)
    (dumpsS : SummarizedResults → String) : PromptPayload → String
  | .full rr => dumpsR rr
  | .condensed s => dumpsS s

/-- Boolean character-prefix test, used to embed Python's
`str.startswith`. -/
def charPrefix : List Char → List Char → Bool
  | [], _ => true
  | _ :: _, [] => false
  | c :: cs, d :: ds => c == d && charPrefix cs ds

/-- Python `str.startswith(p)`: `p`'s characters are a prefix of the
string's characters. -/
def pyStartsWith (s p : String) : Bool := charPrefix p.data s.data

/-- `ReportGenerator.generate_report` (lines 28-85).  The LLM call is
external: `complete q formatted` stands for
`llm_client.complete(system_prompt, user_prompt)` where the fixed
prompt text surrounds the query `q` and the serialized results
`formatted`.  If the returned text does not start with `"# "`, a
top-level heading built from the query is prepended (lines 81-82). -/
def generateReport (dumpsR : ResearchResults → String)
    (dumpsS : SummarizedResults → String)
    (summarize : ContentVal → Nat → String → String)
    (complete : String → String → String)
    (rr : ResearchResults) : String :=
  let formatted := renderPayload dumpsR dumpsS (reportPayload dumpsR summarize rr)
  let report := complete rr.query formatted
  if pyStartsWith report "# " then report
  else "# Research Report: " ++ rr.query ++ "\n\n" ++ report

/-- Helper: appending strings concatenates their character data. -/
theorem string_data_append (s t : String) : (s ++ t).data = s.data ++ t.data := by
  cases s
  cases t
  rfl

/-- The report always begins with a top-level Markdown heading: one is
prepended from the query whenever the model output does not already
start with `"# "` (lines 77-82). -/
theorem generateReport_heading (dumpsR : ResearchResults → String)
    (dumpsS : SummarizedResults → String)
    (summarize : ContentVal → Nat → String → String)
    (complete : String → String → String) (rr : ResearchResults) :
    pyStartsWith (generateReport dumpsR dumpsS summarize complete rr)
      "# " = true := by
  unfold generateReport
  simp only []
  by_cases hs : pyStartsWith (complete rr.query
      (renderPayload dumpsR dumpsS (reportPayload dumpsR summarize rr))) "# " = true
  · rw [if_pos hs]
    exact hs
  · rw [if_neg hs]
    unfold pyStartsWith
    rw [string_data_append, string_data_append, string_data_append]
    rfl

/-- An oversized serializer stub (6001 characters) for witnesses. -/
def bigDumps : ResearchResults → String :=
  fun _ => String.mk (List.replicate 6001 'x')

/-- A small serializer stub for the summarized structure. -/
def smallDumpsS : SummarizedResults → String := fun _ => "\x7b\x7d"

/-- An LLM summarizer stub. -/
def sumW : ContentVal → Nat → String → String := fun _ _ _ => "SUM"

/-- An LLM completion stub whose output lacks a heading. -/
def compW : String → String → String := fun _ _ => "report body"

/-- A web-search page record as `_execute_web_search` really builds
it: `visit_page`'s five-key dict sits under `content`, here with 5000
characters of extracted page text. -/
def webPageItem : Item :=
  { title := some "T", url := some "u"
    content := some (.page { url := "u", title := "T"
                             content := String.mk (List.replicate 5000 'c') }) }

/-- A page record for a failed visit: the one-key error dict. -/
def errorPageItem : Item :=
  { title := some "E", url := some "v"
    content := some (.errorPage "Failed to navigate to v") }

/-- A knowledge-source item whose string content has 801 characters
(above the threshold). -/
def itemBig : Item :=
  { title := some "T", url := some "u"
    content := some (.str (String.mk (List.replicate 801 'c'))) }

/-- An item with short string content (at or below the threshold). -/
def itemSmall : Item := { title := some "S", content := some (.str "short") }

/-- A web-search StepResult holding the three page records above. -/
def webStepW : StepResult :=
  { type := "web_search", status := "complete"
    results := [webPageItem, errorPageItem, itemSmall] }

/-- A concrete results record with one web-search step. -/
def rrW : ResearchResults :=
  { query := "q", status := "complete"
    results := [webStepW]
    completed_steps := 1, total_steps := 1 }

/-- The serializer stub really is oversized on the witness record. -/
theorem bigDumps_big : (bigDumps rrW).length > 6000 := by
  show (String.mk (List.replicate 6001 'x')).length > 6000
  have h : (String.mk (List.replicate 6001 'x')).length
      = (List.replicate 6001 'x').length := rfl
  rw [h, List.length_replicate]
  omega

/-- An item whose content is a visited page's dict always passes
through the pre-summarization loop unchanged: `len()` of the five-key
dict is 5, never above 800. -/
theorem summarizeItem_page (summarize : ContentVal → Nat → String → String)
    (item : Item) (p : PageContent) (h : item.content = some (.page p)) :
    summarizeItem summarize item = item := by
  unfold summarizeItem
  simp only [h]
  rw [if_neg]
  rintro ⟨_, hlen⟩
  simp [pyLen] at hlen

set_option maxRecDepth 8000 in
/-- C6 (code bug): the claimed pre-summarization never happens for web
pages.  `_execute_web_search` stores `visit_page`'s whole dict under
the page record's `content` key, so `len(page["content"]) > 800` in
`_summarize_research_results` measures the dict's key count (5, or 1
for the error dict), never the page text.  Concretely: a page whose
extracted text has 5000 characters (first conjunct) passes through the
web-search summarization loop completely unchanged (second and third
conjuncts), as does the failed-visit record (fourth); a
knowledge-source item, whose content is a plain 801-character string,
is summarized and flagged exactly as the claim describes (fifth); the
claim's heading guarantee does hold (last conjunct). -/
theorem web_page_content_never_summarized :
    (String.mk (List.replicate 5000 'c')).length > 800 ∧
    summarizeStep sumW webStepW = webStepW ∧
    (summarizeItem sumW webPageItem).summarized = none ∧
    summarizeItem sumW errorPageItem = errorPageItem ∧
    summarizeItem sumW itemBig
      = { itemBig with content := some (.str "SUM")
                       summarized := some true } ∧
    (∀ (dumpsR : ResearchResults → String)
       (dumpsS : SummarizedResults → String)
       (summarize : ContentVal → Nat → String → String)
       (complete : String → String → String) (rr : ResearchResults),
      pyStartsWith (generateReport dumpsR dumpsS summarize complete rr)
        "# " = true) := by
  refine ⟨?_, rfl, rfl, rfl, ?_, generateReport_heading⟩
  · have h : (String.mk (List.replicate 5000 'c')).length
        = (List.replicate 5000 'c').length := rfl
    rw [h, List.length_replicate]
    omega
  · decide

/-- C10: when pre-summarization is triggered, the structure handed to
the synthesis prompt retains only the `query`, `status` and `results`
fields of the input record — `_summarize_research_results` reads
nothing else (changing `completed_steps` / `total_steps` cannot change
its output, and its output structure carries only those three keys) —
whereas at or below the size threshold the full record,
`completed_steps` and `total_steps` included, is passed through
unmodified. -/
theorem summarized_payload_drops_progress_fields
    (dumpsR : ResearchResults → String)
    (summarize : ContentVal → Nat → String → String)
    (rr : ResearchResults) (c t : Nat) :
    summarizeResearchResults summarize
        { rr with completed_steps := c, total_steps := t }
      = summarizeResearchResults summarize rr ∧
    ((dumpsR rr).length ≤ 6000 → reportPayload dumpsR summarize rr = .full rr) ∧
    ((dumpsR rr).length > 6000 →
      reportPayload dumpsR summarize rr
        = .condensed { query := rr.query, status := rr.status
                       results := rr.results.map (summarizeStep summarize) }) := by
  refine ⟨rfl, ?_, ?_⟩
  · intro h
    have hno : ¬ ((dumpsR rr).length > 6000) := by omega
    unfold reportPayload
    rw [if_neg hno]
  · intro h
    unfold reportPayload
    rw [if_pos h]
    rfl

/-- Witness for `summarized_payload_drops_progress_fields` on the
concrete oversized record. -/
theorem summarized_payload_witness :
    summarizeResearchResults sumW
        { rrW with completed_steps := 99, total_steps := 42 }
      = summarizeResearchResults sumW rrW ∧
    reportPayload bigDumps sumW rrW
      = .condensed { query := rrW.query, status := rrW.status
                     results := rrW.results.map (summarizeStep sumW) } := by
  have h := summarized_payload_drops_progress_fields bigDumps sumW rrW 99 42
  exact ⟨h.1, h.2.2 bigDumps_big⟩

/-! ## CPython `urllib.parse`, as called by `browser/navigation.py`

`navigation.py` relies on the standard library's `urlparse` /
`urlunparse`; these are embedded here over `List Char` (Python `str` is
a sequence of code points).  The embedding follows CPython's
`urllib/parse.py`: scheme detection (`i = url.find(':')`, leading ASCII
letter, scheme characters only, lowercased), `//`-netloc extraction up
to the first of `/?#`, the mismatched-IPv6-bracket `ValueError`,
fragment then query splitting, and parameter splitting for the
`uses_params` schemes; also the input sanitization (leading
C0-control/space strip, tab/newline removal).  The NFKC netloc check
and the bracketed-host validation — further `ValueError` paths that
only concern exotic Unicode netlocs and `[...]` hosts — are not
modelled. -/

/-- ASCII letter test, matching `url[0].isascii() and url[0].isalpha()`. -/
def isAsciiAlpha (c : Char) : Bool := c.isUpper || c.isLower

/-- A C0 control character or space (`_WHATWG_C0_CONTROL_OR_SPACE`). -/
def isC0OrSpace (c : Char) : Bool := c.toNat ≤ 32

/-- One of `_UNSAFE_URL_BYTES_TO_REMOVE` (tab, newline, carriage
return). -/
def unsafeByte (c : Char) : Bool := c == '\t' || c == '\n' || c == '\r'

/-- `urlsplit`'s input sanitization: strip leading C0-control/space
characters, remove every tab/newline/CR. -/
def sanitizeUrl (l : List Char) : List Char :=
  (l.dropWhile isC0OrSpace).filter (fun c => !(unsafeByte c))

/-- Python `str.lower` on the ASCII range (scheme characters are
ASCII-validated before being lowercased, so this agrees with Python's
Unicode `lower` wherever `urlsplit` applies it). -/
def asciiLower (c : Char) : Char :=
  if 65 ≤ c.toNat ∧ c.toNat ≤ 90 then Char.ofNat (c.toNat + 32) else c

/-- The characters allowed in a URL scheme
(`scheme_chars = letters + digits + "+-."`). -/
def schemeChar (c : Char) : Bool :=
  isAsciiAlpha c || c.isDigit || c == '+' || c == '-' || c == '.'

/-- Split a list at the first occurrence of `c`: `some (before, after)`
(neither side containing that occurrence), or `none` if absent. -/
def splitFirst (c : Char) : List Char → Option (List Char × List Char)
  | [] => none
  | d :: ds =>
      if d == c then some ([], ds)
      else
        match splitFirst c ds with
        | some (a, b) => some (d :: a, b)
        | none => none

/-- Scheme detection of `urlsplit`: the text before the first `:`, when
non-empty, leading-ASCII-letter and made of scheme characters, is the
scheme (lowercased); otherwise the scheme is empty and the whole input
remains. -/
def splitScheme (url : List Char) : List Char × List Char :=
  match splitFirst ':' url with
  | some (before, after) =>
      match before with
      | [] => ([], url)
      | c :: cs =>
          if isAsciiAlpha c ∧ (c :: cs).all schemeChar then
            ((c :: cs).map asciiLower, after)
          else ([], url)
  | none => ([], url)

/-- A netloc delimiter (`/`, `?` or `#`). -/
def isDelim (c : Char) : Bool := c == '/' || c == '?' || c == '#'

/-- `_splitnetloc`: take characters up to the first of `/`, `?`, `#`. -/
def takeUntilDelim : List Char → List Char × List Char
  | [] => ([], [])
  | c :: cs =>
      if isDelim c then ([], c :: cs)
      else
        let p := takeUntilDelim cs
        (c :: p.1, p.2)

/-- The `SplitResult` record of `urlsplit`. -/
structure UrlSplitResult where
  scheme : List Char
  netloc : List Char
  path : List Char
  query : List Char
  fragment : List Char
deriving DecidableEq

/-- The `ParseResult` record of `urlparse`. -/
structure UrlParseResult where
  scheme : List Char
  netloc : List Char
  path : List Char
  params : List Char
  query : List Char
  fragment : List Char
deriving DecidableEq

/-- CPython `urlsplit` (fragments allowed): scheme, optional
`//`-netloc (with the mismatched-bracket `ValueError`), fragment split
at the first `#`, query split at the first `?`. -/
def urlsplitCore (rawUrl : List Char) : Except Unit UrlSplitResult :=
  let url := sanitizeUrl rawUrl
  let s := splitScheme url
  let n :=
    match s.2 with
    | '/' :: '/' :: tail => takeUntilDelim tail
    | rest => ([], rest)
  if ('[' ∈ n.1 ∧ ']' ∉ n.1) ∨ (']' ∈ n.1 ∧ '[' ∉ n.1) then .error ()
  else
    let f :=
      match splitFirst '#' n.2 with
      | some (a, b) => (a, b)
      | none => (n.2, [])
    let q :=
      match splitFirst '?' f.1 with
      | some (a, b) => (a, b)
      | none => (f.1, [])
    .ok { scheme := s.1, netloc := n.1, path := q.1, query := q.2
          fragment := f.2 }

/-- The schemes for which `urlparse` splits parameters
(`uses_params`). -/
def usesParamsStr : List String :=
  ["", "ftp", "hdl", "prospero", "http", "imap", "https", "shttp", "rtsp"
  , "rtsps", "rtspu", "sip", "sips", "mms", "sftp", "tel"]

/-- The schemes that imply a `//` netloc section on reassembly
(`uses_netloc`). -/
def usesNetlocStr : List String :=
  ["", "ftp", "http", "gopher", "nntp", "telnet", "imap", "wais", "file"
  , "mms", "https", "shttp", "snews", "prospero", "rtsp", "rtsps", "rtspu"
  , "rsync", "svn", "svn+ssh", "sftp", "nfs", "git", "git+ssh", "ws", "wss"]

/-- Split off the segment after the last `/`: `some (pre, seg)` with
the input equal to `pre ++ seg`, `pre` ending in the last `/` and `seg`
slash-free; `none` when the input has no `/`. -/
def splitAtLastSlash : List Char → Option (List Char × List Char)
  | [] => none
  | c :: cs =>
      match splitAtLastSlash cs with
      | some p => some (c :: p.1, p.2)
      | none => if c == '/' then some (['/'], cs) else none

/-- `_splitparams`: the first `;` at or after the last `/` (or the
first `;` overall when there is no `/`) separates path from params. -/
def splitParams (p : List Char) : List Char × List Char :=
  match splitAtLastSlash p with
  | some pre =>
      match splitFirst ';' pre.2 with
      | some (a, b) => (pre.1 ++ a, b)
      | none => (p, [])
  | none =>
      match splitFirst ';' p with
      | some (a, b) => (a, b)
      | none => (p, [])

/-- CPython `urlparse`: `urlsplit`, then parameter splitting when the
scheme uses parameters and the path contains a `;`. -/
def urlparseCore (url : List Char) : Except Unit UrlParseResult :=
  match urlsplitCore url with
  | .error e => .error e
  | .ok r =>
      let pp :=
        if String.mk r.scheme ∈ usesParamsStr ∧ ';' ∈ r.path then
          splitParams r.path
        else (r.path, [])
      .ok { scheme := r.scheme, netloc := r.netloc, path := pp.1
            params := pp.2, query := r.query, fragment := r.fragment }

/-- CPython `urlunsplit` (3.11): the `//` section is emitted when the
netloc is non-empty, or when the scheme is non-empty, uses a netloc,
and the path does not already start with `//`. -/
def urlunsplitCore (scheme netloc url query fragment : List Char) :
    List Char :=
  let url1 :=
    if netloc ≠ [] ∨
        (scheme ≠ [] ∧ String.mk scheme ∈ usesNetlocStr ∧
          url.take 2 ≠ ['/', '/']) then
      let url0 := if url ≠ [] ∧ url.take 1 ≠ ['/'] then '/' :: url else url
      '/' :: '/' :: (netloc ++ url0)
    else url
  let url2 := if scheme ≠ [] then scheme ++ ':' :: url1 else url1
  let url3 := if query ≠ [] then url2 ++ '?' :: query else url2
  if fragment ≠ [] then url3 ++ '#' :: fragment else url3

/-- CPython `urlunparse`: re-attach params with `;`, then `urlunsplit`. -/
def urlunparseCore (r : UrlParseResult) : List Char :=
  let u := if r.params ≠ [] then r.path ++ ';' :: r.params else r.path
  urlunsplitCore r.scheme r.netloc u r.query r.fragment

/-! ## `NavigationManager.normalize_url` (`navigation.py`, lines 279-319) -/

/-- Helper: `dropWhile` never lengthens a list. -/
theorem dropWhile_slash_length_le (l : List Char) :
    (l.dropWhile (· == '/')).length ≤ l.length := by
  induction l with
  | nil => simp [List.dropWhile]
  | cons d ds ih =>
      simp only [List.dropWhile]
      split
      · exact Nat.le_succ_of_le ih
      · simp

/-- `re.sub(r"/+", "/", path)`: collapse every run of slashes to one
(a slash followed by another slash is dropped, keeping the last slash
of each run). -/
def collapseSlashes : List Char → List Char
  | [] => []
  | [c] => [c]
  | c :: d :: t =>
      if c == '/' && d == '/' then collapseSlashes (d :: t)
      else c :: collapseSlashes (d :: t)

/-- Remove a trailing slash unless the path is exactly `/`
(lines 302-303). -/
def stripTrailingSlash (p : List Char) : List Char :=
  if p.length > 1 ∧ p.getLast? = some '/' then p.dropLast else p

/-- The reconstruction step of `normalize_url` (lines 298-315):
normalize the path, drop the fragment, reassemble. -/
def buildNormalized (r : UrlParseResult) : List Char :=
  urlunparseCore
    { r with path := stripTrailingSlash (collapseSlashes r.path)
             fragment := [] }

/-- `NavigationManager.normalize_url`.  When the first parse finds no
scheme the source rebinds `url` to `f"https://{url}"` before reparsing,
so if that second parse raises, the `except` handler returns the
rebound (prepended) string, not the original input. -/
def normalizeUrlCore (url : List Char) : List Char :=
  match urlparseCore url with
  | .error _ => url
  | .ok parsed =>
      if parsed.scheme = [] then
        let url2 := ('h' :: 't' :: 't' :: 'p' :: 's' :: ':' :: '/' :: '/' :: url)
        match urlparseCore url2 with
        | .error _ => url2
        | .ok parsed2 => buildNormalized parsed2
      else buildNormalized parsed

/-- String-level `normalize_url`. -/
def normalize_url (s : String) : String := String.mk (normalizeUrlCore s.data)

/-! ## Robots compliance (`browser/navigation.py`, `RobotsParser`),
together with CPython's `urllib.robotparser.RobotFileParser` state it
manipulates. -/

/-- CPython `RobotFileParser` state: the `disallow_all` / `allow_all`
flags, whether `parse` has run (`last_checked` non-zero), and the
parsed robots.txt lines (rule evaluation is delegated to an external
evaluator parameter). -/
structure RobotFileParser where
  disallow_all : Bool := false
  allow_all : Bool := false
  everParsed : Bool := false
  entries : List String := []
deriving DecidableEq

/-- CPython `RobotFileParser.can_fetch`: deny-all flag first, then
allow-all; until robots.txt has been read (`last_checked` still 0)
every URL is reported as NOT fetchable; otherwise the parsed entries
decide via `evalRules`. -/
def RobotFileParser.canFetch (evalRules : List String → String → String → Bool)
    (rp : RobotFileParser) (userAgent url : String) : Bool :=
  if rp.disallow_all then false
  else if rp.allow_all then true
  else if !rp.everParsed then false
  else evalRules rp.entries userAgent url

/-- CPython `RobotFileParser.parse`: records the lines and calls
`modified()` (setting `last_checked`). -/
def RobotFileParser.parseLines (rp : RobotFileParser) (lines : List String) :
    RobotFileParser :=
  { rp with entries := lines, everParsed := true }

/-- The `RobotsParser` state of `navigation.py` (lines 23-32): per-domain
parser dict, TTL, per-domain fetch-timestamp dict. -/
structure RobotsParserState where
  cache_ttl : Nat := 3600
  robot_parsers : List (String × RobotFileParser) := []
  cache_timestamps : List (String × Nat) := []
deriving DecidableEq

/-- The outcome of the external robots.txt HTTP fetch: an HTTP status
with body lines, or a raised error. -/
inductive FetchOutcome
  | ok (status : Nat) (lines : List String)
  | exn (msg : String)
deriving DecidableEq

/-- Python dict assignment: overwrite in place, or append at the back. -/
def dictInsert {β : Type} : List (String × β) → String → β → List (String × β)
  | [], k, v => [(k, v)]
  | (k0, v0) :: rest, k, v =>
      if k0 = k then (k0, v) :: rest else (k0, v0) :: dictInsert rest k v

/-- The `RobotFileParser` produced by the fetch path of
`RobotsParser.can_fetch` (lines 61-79): on HTTP 200 a fresh parser fed
the body lines; on a non-200 status or a raised fetch error, the
source's `rp.disallow_all = False` fix-up — which leaves the fresh
parser in its deny-by-default unparsed state. -/
def robotsFetchRp (world : String → FetchOutcome) (robotsUrl : String) :
    RobotFileParser :=
  match world robotsUrl with
  | .ok 200 lines => RobotFileParser.parseLines {} lines
  | .ok _ _ => { disallow_all := false }
  | .exn _ => { disallow_all := false }

/-- The fetch-and-cache path of `RobotsParser.can_fetch`
(lines 61-86): fetch and build the parser, cache it and the current
timestamp for the domain, evaluate.  The third component counts the
outbound robots.txt fetch. -/
def robotsFetchPath (evalRules : List String → String → String → Bool)
    (world : String → FetchOutcome) (now : Nat) (st : RobotsParserState)
    (domain robotsUrl url userAgent : String) :
    Bool × RobotsParserState × Nat :=
  ((robotsFetchRp world robotsUrl).canFetch evalRules userAgent url
  , { st with
        robot_parsers :=
          dictInsert st.robot_parsers domain (robotsFetchRp world robotsUrl)
        cache_timestamps := dictInsert st.cache_timestamps domain now }
  , 1)

/-- `RobotsParser.can_fetch` (lines 34-90).  The URL parse reuses the
embedded `urlparse`; a raised parse error is caught by the outer
`except` and yields `True`; a URL without a netloc yields `True`; a
cached parser younger than the TTL is evaluated without fetching;
otherwise the robots.txt is fetched (`robotsFetchPath`). -/
def robotsCanFetch (evalRules : List String → String → String → Bool)
    (world : String → FetchOutcome) (now : Nat) (st : RobotsParserState)
    (url userAgent : String) : Bool × RobotsParserState × Nat :=
  match urlparseCore url.data with
  | .error _ => (true, st, 0)
  | .ok parsed =>
      if parsed.netloc = [] then (true, st, 0)
      else
        match st.robot_parsers.lookup (String.mk parsed.netloc) with
        | some rp =>
            if now - ((st.cache_timestamps.lookup
                (String.mk parsed.netloc)).getD 0) < st.cache_ttl then
              (rp.canFetch evalRules userAgent url, st, 0)
            else
              robotsFetchPath evalRules world now st (String.mk parsed.netloc)
                (String.mk parsed.scheme ++ "://" ++ String.mk parsed.netloc
                  ++ "/robots.txt") url userAgent
        | none =>
            robotsFetchPath evalRules world now st (String.mk parsed.netloc)
              (String.mk parsed.scheme ++ "://" ++ String.mk parsed.netloc
                ++ "/robots.txt") url userAgent

/-- C5 evaluation: on a robots.txt fetch failure (non-200 status or a
raised error) the source intends "allow all" — its comments say so and
its `rp.disallow_all = False` fix-up attempts it — but the call in fact
returns `False`, because the fresh `RobotFileParser` was never fed any
robots.txt and CPython's `can_fetch` denies everything until
`last_checked` is set.  Only the no-netloc fail-open (`True`) behaves
as documented. -/
theorem robots_failure_denies_instead_of_allowing :
    (robotsCanFetch (fun _ _ _ => true) (fun _ => .ok 404 []) 0 {}
      "http://example.com/page" "TestAgent").1 = false ∧
    (robotsCanFetch (fun _ _ _ => true) (fun _ => .exn "timeout") 0 {}
      "http://example.com/page" "TestAgent").1 = false ∧
    (robotsCanFetch (fun _ _ _ => true) (fun _ => .ok 404 []) 0 {}
      "nohost" "TestAgent").1 = true := by
  refine ⟨by decide, by decide, by decide⟩

/-- Helper: one `can_fetch` call issues at most one robots.txt fetch. -/
theorem robotsCanFetch_count_le_one
    (evalRules : List String → String → String → Bool)
    (world : String → FetchOutcome) (now : Nat) (st : RobotsParserState)
    (url userAgent : String) :
    (robotsCanFetch evalRules world now st url userAgent).2.2 ≤ 1 := by
  unfold robotsCanFetch robotsFetchPath
  repeat' split
  all_goals simp

/-- Helper: looking up the just-assigned key of a Python dict. -/
theorem lookup_dictInsert {β : Type} (l : List (String × β)) (k : String)
    (v : β) : (dictInsert l k v).lookup k = some v := by
  induction l with
  | nil => simp [dictInsert, List.lookup]
  | cons p rest ih =>
      obtain ⟨k0, v0⟩ := p
      unfold dictInsert
      by_cases h : k0 = k
      · rw [if_pos h]
        subst h
        simp [List.lookup]
      · rw [if_neg h]
        have hbe : (k == k0) = false := beq_eq_false_iff_ne.mpr (Ne.symm h)
        simp [List.lookup, hbe, ih]

/-- Helper: the two ways a netloc-bearing `can_fetch` call can go:
evaluate a fresh cached parser without fetching, or take the
fetch-and-cache path. -/
theorem robotsCanFetch_cases
    (evalRules : List String → String → String → Bool)
    (world : String → FetchOutcome) (now : Nat) (st : RobotsParserState)
    (url userAgent : String) (r : UrlParseResult)
    (hu : urlparseCore url.data = .ok r) (hne : ¬ (r.netloc = [])) :
    (∃ rp, st.robot_parsers.lookup (String.mk r.netloc) = some rp ∧
      now - ((st.cache_timestamps.lookup (String.mk r.netloc)).getD 0)
          < st.cache_ttl ∧
      robotsCanFetch evalRules world now st url userAgent
        = (rp.canFetch evalRules userAgent url, st, 0)) ∨
    robotsCanFetch evalRules world now st url userAgent
      = robotsFetchPath evalRules world now st (String.mk r.netloc)
          (String.mk r.scheme ++ "://" ++ String.mk r.netloc
            ++ "/robots.txt") url userAgent := by
  unfold robotsCanFetch
  rw [hu]
  simp only [if_neg hne]
  cases hl : st.robot_parsers.lookup (String.mk r.netloc) with
  | none => right; rfl
  | some rp =>
      by_cases ht : now - ((st.cache_timestamps.lookup
          (String.mk r.netloc)).getD 0) < st.cache_ttl
      · left
        exact ⟨rp, rfl, ht, by simp [ht]⟩
      · right
        simp [ht]

/-- C8: two `can_fetch` calls whose URLs share a (non-empty) domain,
the second within the cache TTL of the first, issue at most one
outbound robots.txt fetch between them: whichever call stores the
parsed (or failure) ruleset with its timestamp, the other evaluates a
cached entry younger than the TTL without fetching. -/
theorem robots_cache_single_fetch
    (evalRules : List String → String → String → Bool)
    (world : String → FetchOutcome)
    (st : RobotsParserState) (now1 now2 : Nat)
    (url1 url2 userAgent1 userAgent2 : String) (r1 r2 : UrlParseResult)
    (hu1 : urlparseCore url1.data = .ok r1)
    (hu2 : urlparseCore url2.data = .ok r2)
    (hD : r1.netloc = r2.netloc) (hne : ¬ (r1.netloc = []))
    (hmono : now1 ≤ now2)
    (httl : now2 - now1 < st.cache_ttl) :
    (robotsCanFetch evalRules world now1 st url1 userAgent1).2.2
      + (robotsCanFetch evalRules world now2
          (robotsCanFetch evalRules world now1 st url1 userAgent1).2.1
          url2 userAgent2).2.2 ≤ 1 := by
  rcases robotsCanFetch_cases evalRules world now1 st url1 userAgent1 r1
      hu1 hne with ⟨rp, hl, ht, hc1⟩ | hc1
  · rw [hc1]
    have h2 := robotsCanFetch_count_le_one evalRules world now2 st url2
      userAgent2
    simpa using h2
  · rw [hc1]
    have hcall2 : (robotsCanFetch evalRules world now2
        (robotsFetchPath evalRules world now1 st (String.mk r1.netloc)
          (String.mk r1.scheme ++ "://" ++ String.mk r1.netloc
            ++ "/robots.txt") url1 userAgent1).2.1 url2 userAgent2).2.2
        = 0 := by
      unfold robotsCanFetch robotsFetchPath
      simp only [hu2]
      rw [if_neg (by rw [← hD]; exact hne), ← hD]
      simp [lookup_dictInsert, httl]
    rw [hcall2]
    simp [robotsFetchPath]

/-- Concrete instantiation of `robots_cache_single_fetch`: two calls on
`example.com` at times 0 and 10 with TTL 3600 perform exactly one
fetch. -/
theorem robots_cache_single_fetch_witness :
    (robotsCanFetch (fun _ _ _ => true) (fun _ => .ok 200 ["User-agent: *"])
        0 {} "http://example.com/a" "A").2.2
      + (robotsCanFetch (fun _ _ _ => true)
          (fun _ => .ok 200 ["User-agent: *"]) 10
          (robotsCanFetch (fun _ _ _ => true)
            (fun _ => .ok 200 ["User-agent: *"]) 0 {}
            "http://example.com/a" "A").2.1
          "http://example.com/b" "B").2.2 ≤ 1 := by
  apply robots_cache_single_fetch (fun _ _ _ => true)
    (fun _ => .ok 200 ["User-agent: *"]) {} 0 10
    "http://example.com/a" "http://example.com/b" "A" "B"
    { scheme := "http".data, netloc := "example.com".data
      path := "/a".data, params := [], query := [], fragment := [] }
    { scheme := "http".data, netloc := "example.com".data
      path := "/b".data, params := [], query := [], fragment := [] }
  · rfl
  · rfl
  · rfl
  · decide
  · decide
  · decide

/-! ## `ReportGenerator.format_citations` (lines 150-187) -/

/-- Python `str.capitalize` (ASCII range): first character uppercased,
the rest lowercased. -/
def pyCapitalize (s : String) : String :=
  match s.data with
  | [] => ""
  | c :: cs => String.mk (c.toUpper :: cs.map Char.toLower)

/-- A web-search citation line
(`f"{i}. {title}. Retrieved from {url}"`). -/
def citationLineWeb (idx : Nat) (title url : String) : String :=
  toString idx ++ ". " ++ title ++ ". Retrieved from " ++ url

/-- A knowledge-source citation line
(`f"{i}. {title}. {source.capitalize()}. Retrieved from {url}"`). -/
def citationLineKnowledge (idx : Nat) (title source url : String) : String :=
  toString idx ++ ". " ++ title ++ ". " ++ pyCapitalize source
    ++ ". Retrieved from " ++ url

/-- The inner loop of `format_citations` for a `web_search` step
(lines 165-170): one line per page carrying both url and title,
incrementing the global index. -/
def citeWebItems : List Item → (List String × Nat) → List String × Nat
  | [], acc => acc
  | item :: rest, acc =>
      match item.url, item.title with
      | some u, some t =>
          citeWebItems rest (acc.1 ++ [citationLineWeb acc.2 t u], acc.2 + 1)
      | _, _ => citeWebItems rest acc

/-- The inner loop for a `knowledge_source` step (lines 172-178).  The
step's `source` is fetched with `.get("source")`; when it is absent
(`None`) the `source.capitalize()` call raises `AttributeError` at the
first citable item, embedded as the error case. -/
def citeKnowledgeItems (source : Option String) :
    List Item → (List String × Nat) → Except String (List String × Nat)
  | [], acc => .ok acc
  | item :: rest, acc =>
      match item.title, item.url with
      | some t, some u =>
          match source with
          | some src =>
              citeKnowledgeItems source rest
                (acc.1 ++ [citationLineKnowledge acc.2 t src u], acc.2 + 1)
          | none => .error "AttributeError: NoneType has no capitalize"
      | _, _ => citeKnowledgeItems source rest acc

/-- One step of the outer loop of `format_citations`: steps of other
types contribute nothing. -/
def citeStep (sr : StepResult) (acc : List String × Nat) :
    Except String (List String × Nat) :=
  if sr.type = "web_search" then .ok (citeWebItems sr.results acc)
  else if sr.type = "knowledge_source" then
    citeKnowledgeItems sr.source sr.results acc
  else .ok acc

/-- The outer loop over all StepResults; a raised `AttributeError`
propagates out. -/
def citeSteps : List StepResult → (List String × Nat) →
    Except String (List String × Nat)
  | [], acc => .ok acc
  | sr :: rest, acc =>
      match citeStep sr acc with
      | .ok next => citeSteps rest next
      | .error e => .error e

/-- `ReportGenerator.format_citations`: walk the StepResults with a
global citation counter starting at 1; the empty string when nothing
was citable, otherwise a References section joining the lines. -/
def formatCitations (rr : ResearchResults) : Except String String :=
  match citeSteps rr.results (([] : List String), 1) with
  | .error e => .error e
  | .ok acc =>
      if acc.1 = [] then .ok ""
      else .ok ("## References\n\n" ++ String.intercalate "\n" acc.1)

/-- The citable records of one StepResult, in item order: `(title, url,
source tag)`, keeping exactly the items carrying both a title and a
url; steps of other types contribute nothing. -/
def citableOf (sr : StepResult) : List (String × String × Option String) :=
  if sr.type = "web_search" then
    sr.results.filterMap (fun item =>
      match item.url, item.title with
      | some u, some t => some (t, u, (none : Option String))
      | _, _ => none)
  else if sr.type = "knowledge_source" then
    sr.results.filterMap (fun item =>
      match item.title, item.url with
      | some t, some u => some (t, u, sr.source)
      | _, _ => none)
  else []

/-- Render one citable record at a citation number. -/
def renderCitation (idx : Nat) (rec : String × String × Option String) :
    String :=
  match rec.2.2 with
  | some src => citationLineKnowledge idx rec.1 src rec.2.1
  | none => citationLineWeb idx rec.1 rec.2.1

/-- The citation lines `format_citations` should emit: all citable
records across all steps in traversal order, numbered globally from
1. -/
def citationLines (rr : ResearchResults) : List String :=
  (List.enumFrom 1 (rr.results.map citableOf).flatten).map
    (fun p => renderCitation p.1 p.2)

/-- Helper: `enumFrom` distributes over append, shifting the start. -/
theorem enumFrom_append {α : Type} (a b : List α) :
    ∀ n, List.enumFrom n (a ++ b)
      = List.enumFrom n a ++ List.enumFrom (n + a.length) b := by
  induction a with
  | nil => intro n; simp
  | cons x xs ih =>
      intro n
      simp only [List.cons_append, List.enumFrom_cons, ih, List.length_cons]
      have hn : n + 1 + xs.length = n + (xs.length + 1) := by omega
      rw [hn]

/-- Helper: the web-search inner loop appends exactly the rendered
citable records, advancing the counter by their number. -/
theorem citeWebItems_eq (items : List Item) :
    ∀ (lines : List String) (n : Nat),
    citeWebItems items (lines, n)
      = (lines ++ (List.enumFrom n (items.filterMap (fun item =>
            match item.url, item.title with
            | some u, some t => some (t, u, (none : Option String))
            | _, _ => none))).map (fun p => renderCitation p.1 p.2)
        , n + (items.filterMap (fun item =>
            match item.url, item.title with
            | some u, some t => some (t, u, (none : Option String))
            | _, _ => none)).length) := by
  induction items with
  | nil => intro lines n; simp [citeWebItems]
  | cons item rest ih =>
      intro lines n
      unfold citeWebItems
      cases hu : item.url with
      | none =>
          simp only []
          rw [ih]
          simp [List.filterMap_cons, hu]
      | some u =>
          cases ht : item.title with
          | none =>
              simp only []
              rw [ih]
              simp [List.filterMap_cons, hu, ht]
          | some t =>
              simp only []
              rw [ih]
              simp only [List.filterMap_cons, hu, ht, List.enumFrom_cons
                , List.map_cons, List.length_cons, Prod.mk.injEq]
              constructor
              · simp [renderCitation, List.append_assoc]
              · omega

/-- Helper: the knowledge-source inner loop, when the step carries a
source, appends exactly the rendered citable records. -/
theorem citeKnowledgeItems_eq (src : String) (items : List Item) :
    ∀ (lines : List String) (n : Nat),
    citeKnowledgeItems (some src) items (lines, n)
      = .ok (lines ++ (List.enumFrom n (items.filterMap (fun item =>
            match item.title, item.url with
            | some t, some u => some (t, u, some src)
            | _, _ => none))).map (fun p => renderCitation p.1 p.2)
          , n + (items.filterMap (fun item =>
            match item.title, item.url with
            | some t, some u => some (t, u, some src)
            | _, _ => none)).length) := by
  induction items with
  | nil => intro lines n; simp [citeKnowledgeItems]
  | cons item rest ih =>
      intro lines n
      unfold citeKnowledgeItems
      cases ht : item.title with
      | none =>
          simp only []
          rw [ih]
          simp [List.filterMap_cons, ht]
      | some t =>
          cases hu : item.url with
          | none =>
              simp only []
              rw [ih]
              simp [List.filterMap_cons, ht, hu]
          | some u =>
              simp only []
              rw [ih]
              simp only [List.filterMap_cons, ht, hu, List.enumFrom_cons
                , List.map_cons, List.length_cons, Except.ok.injEq
                , Prod.mk.injEq]
              constructor
              · simp [renderCitation, List.append_assoc]
              · omega

/-- Helper: one outer-loop step appends its step's rendered citable
records. -/
theorem citeStep_eq (sr : StepResult) (lines : List String) (n : Nat)
    (hs : sr.type = "knowledge_source" → sr.source.isSome) :
    citeStep sr (lines, n)
      = .ok (lines ++ (List.enumFrom n (citableOf sr)).map
            (fun p => renderCitation p.1 p.2)
          , n + (citableOf sr).length) := by
  unfold citeStep citableOf
  by_cases hw : sr.type = "web_search"
  · rw [if_pos hw, if_pos hw, citeWebItems_eq]
  · rw [if_neg hw, if_neg hw]
    by_cases hk : sr.type = "knowledge_source"
    · rw [if_pos hk, if_pos hk]
      have hsome := hs hk
      obtain ⟨src, hsrc⟩ : ∃ src, sr.source = some src := by
        cases hso : sr.source with
        | none => rw [hso] at hsome; simp [Option.isSome] at hsome
        | some src => exact ⟨src, rfl⟩
      rw [hsrc, citeKnowledgeItems_eq src]
    · rw [if_neg hk, if_neg hk]
      simp

/-- Helper: the outer loop over all steps. -/
theorem citeSteps_fold (steps : List StepResult)
    (hsrc : ∀ sr ∈ steps, sr.type = "knowledge_source" → sr.source.isSome) :
    ∀ (lines : List String) (n : Nat),
    citeSteps steps (lines, n)
      = .ok (lines ++ (List.enumFrom n (steps.map citableOf).flatten).map
            (fun p => renderCitation p.1 p.2)
          , n + ((steps.map citableOf).flatten).length) := by
  induction steps with
  | nil => intro lines n; simp [citeSteps]
  | cons sr rest ih =>
      intro lines n
      have h1 := citeStep_eq sr lines n (hsrc sr (by simp))
      unfold citeSteps
      rw [h1]
      simp only []
      rw [ih (fun s hs => hsrc s (by simp [hs]))]
      simp only [List.map_cons, List.flatten_cons, enumFrom_append
        , List.map_append, List.length_append, Except.ok.injEq
        , Prod.mk.injEq]
      constructor
      · simp [List.append_assoc]
      · omega

/-- C9: `format_citations` walks the StepResult sequence in order and
emits exactly one numbered citation line per item carrying both a
title and a url (web-search pages and knowledge-source records alike),
numbered globally from 1 in traversal order; items missing either
field are skipped; with no citable items it returns the empty string.
(Knowledge-source steps are assumed to carry their `source` tag, as
the executor always records it; without it the source raises.) -/
theorem format_citations_characterization (rr : ResearchResults)
    (hsrc : ∀ sr ∈ rr.results, sr.type = "knowledge_source" →
      sr.source.isSome) :
    formatCitations rr
      = .ok (if citationLines rr = [] then ""
             else "## References\n\n"
               ++ String.intercalate "\n" (citationLines rr)) ∧
    (citationLines rr).length
      = ((rr.results.map citableOf).flatten).length ∧
    (citationLines rr = [] ↔ (rr.results.map citableOf).flatten = []) := by
  have hfold := citeSteps_fold rr.results hsrc [] 1
  refine ⟨?_, ?_, ?_⟩
  · unfold formatCitations
    rw [hfold]
    simp only [List.nil_append]
    show (if citationLines rr = [] then (Except.ok "" : Except String String)
          else .ok ("## References\n\n"
            ++ String.intercalate "\n" (citationLines rr)))
        = Except.ok (if citationLines rr = [] then ""
            else "## References\n\n"
              ++ String.intercalate "\n" (citationLines rr))
    split
    next h => rfl
    next h => rfl
  · simp [citationLines]
  · simp [citationLines]

/-- Witness for `format_citations_characterization`: two steps, three
citable items, one skipped item. -/
theorem format_citations_witness :
    formatCitations
      { query := "q", status := "complete", completed_steps := 2
        total_steps := 2
        results :=
          [ { type := "web_search", status := "complete"
              results := [ { title := some "A", url := some "ua" }
                         , { title := some "NoUrl" } ] }
          , { type := "knowledge_source", status := "complete"
              source := some "wikipedia"
              results := [ { title := some "B", url := some "ub" }
                         , { title := some "C", url := some "uc" } ] } ] }
      = .ok ("## References\n\n"
          ++ "1. A. Retrieved from ua\n2. B. Wikipedia. Retrieved from ub\n"
          ++ "3. C. Wikipedia. Retrieved from uc") := by
  have h := format_citations_characterization
    { query := "q", status := "complete", completed_steps := 2
      total_steps := 2
      results :=
        [ { type := "web_search", status := "complete"
            results := [ { title := some "A", url := some "ua" }
                       , { title := some "NoUrl" } ] }
        , { type := "knowledge_source", status := "complete"
            source := some "wikipedia"
            results := [ { title := some "B", url := some "ub" }
                       , { title := some "C", url := some "uc" } ] } ] }
    (by decide)
  rw [h.1]
  rfl

/-! ### Structural lemmas about the URL-splitting primitives -/

/-- A successful `splitFirst` decomposes its input. -/
theorem splitFirst_eq_some (ch : Char) :
    ∀ (l a b : List Char), splitFirst ch l = some (a, b) →
      l = a ++ ch :: b ∧ ch ∉ a := by
  intro l
  induction l with
  | nil => intro a b h; simp [splitFirst] at h
  | cons d ds ih =>
      intro a b h
      unfold splitFirst at h
      by_cases hd : (d == ch) = true
      · rw [if_pos hd] at h
        simp only [Option.some.injEq, Prod.mk.injEq] at h
        obtain ⟨ha, hb⟩ := h
        subst ha
        subst hb
        have hde : d = ch := by simpa using hd
        subst hde
        simp
      · rw [if_neg hd] at h
        cases hsp : splitFirst ch ds with
        | none => rw [hsp] at h; simp at h
        | some p =>
            obtain ⟨a0, b0⟩ := p
            rw [hsp] at h
            simp only [Option.some.injEq, Prod.mk.injEq] at h
            obtain ⟨ha, hb⟩ := h
            subst ha
            subst hb
            obtain ⟨hds, hnm⟩ := ih a0 b0 hsp
            constructor
            · rw [hds]
              rfl
            · intro hmem
              rcases List.mem_cons.mp hmem with he | hm
              · exact hd (by simp [he.symm])
              · exact hnm hm

/-- A failing `splitFirst` means the character is absent. -/
theorem splitFirst_eq_none (ch : Char) :
    ∀ (l : List Char), splitFirst ch l = none → ch ∉ l := by
  intro l
  induction l with
  | nil => intro _ h; simp at h
  | cons d ds ih =>
      intro h
      unfold splitFirst at h
      by_cases hd : (d == ch) = true
      · rw [if_pos hd] at h; simp at h
      · rw [if_neg hd] at h
        cases hsp : splitFirst ch ds with
        | none =>
            intro hmem
            rcases List.mem_cons.mp hmem with he | hm
            · exact hd (by simp [he.symm])
            · exact ih hsp hm
        | some p => rw [hsp] at h; simp at h

/-- `splitFirst` finds the marked occurrence after a clean prefix. -/
theorem splitFirst_append (ch : Char) :
    ∀ (a b : List Char), ch ∉ a → splitFirst ch (a ++ ch :: b) = some (a, b) := by
  intro a
  induction a with
  | nil =>
      intro b _
      unfold splitFirst
      simp
  | cons d ds ih =>
      intro b hnm
      have hd : (d == ch) = false := by
        apply beq_eq_false_iff_ne.mpr
        intro he
        exact hnm (by simp [he])
      rw [List.cons_append]
      simp only [splitFirst]
      rw [if_neg (by simp [hd])]
      rw [ih b (fun hm => hnm (List.mem_cons_of_mem d hm))]

/-- `splitFirst` fails when the character is absent. -/
theorem splitFirst_none_of_not_mem (ch : Char) :
    ∀ (l : List Char), ch ∉ l → splitFirst ch l = none := by
  intro l
  induction l with
  | nil => intro _; rfl
  | cons d ds ih =>
      intro hnm
      have hd : (d == ch) = false := by
        apply beq_eq_false_iff_ne.mpr
        intro he
        exact hnm (by simp [he])
      simp only [splitFirst]
      rw [if_neg (by simp [hd])]
      rw [ih (fun hm => hnm (List.mem_cons_of_mem d hm))]

/-- `takeUntilDelim` decomposes its input: delimiter-free prefix, and a
remainder that is empty or starts with a delimiter. -/
theorem takeUntilDelim_spec :
    ∀ (l : List Char),
      (takeUntilDelim l).1 ++ (takeUntilDelim l).2 = l ∧
      (∀ c ∈ (takeUntilDelim l).1, isDelim c = false) ∧
      ((takeUntilDelim l).2 = [] ∨
        ∃ c cs, (takeUntilDelim l).2 = c :: cs ∧ isDelim c = true) := by
  intro l
  induction l with
  | nil => simp [takeUntilDelim]
  | cons d ds ih =>
      unfold takeUntilDelim
      by_cases hd : isDelim d = true
      · rw [if_pos hd]
        exact ⟨rfl, by simp, Or.inr ⟨d, ds, rfl, hd⟩⟩
      · rw [if_neg hd]
        simp only []
        obtain ⟨h1, h2, h3⟩ := ih
        refine ⟨?_, ?_, h3⟩
        · simp [h1]
        · intro c hc
          rcases List.mem_cons.mp hc with he | hm
          · rw [he]
            exact Bool.not_eq_true _ ▸ (by simpa using hd)
          · exact h2 c hm

/-- `takeUntilDelim` takes everything when no delimiter occurs. -/
theorem takeUntilDelim_all (l : List Char)
    (h : ∀ c ∈ l, isDelim c = false) : takeUntilDelim l = (l, []) := by
  induction l with
  | nil => rfl
  | cons d ds ih =>
      simp only [takeUntilDelim]
      rw [if_neg (by simp [h d (by simp)])]
      rw [ih (fun c hc => h c (by simp [hc]))]

/-- `takeUntilDelim` stops at the first delimiter. -/
theorem takeUntilDelim_append (a : List Char) (c : Char) (b : List Char)
    (ha : ∀ x ∈ a, isDelim x = false) (hc : isDelim c = true) :
    takeUntilDelim (a ++ c :: b) = (a, c :: b) := by
  induction a with
  | nil =>
      rw [List.nil_append]
      simp only [takeUntilDelim]
      rw [if_pos hc]
  | cons d ds ih =>
      rw [List.cons_append]
      simp only [takeUntilDelim]
      rw [if_neg (by simp [ha d (by simp)])]
      rw [ih (fun x hx => ha x (by simp [hx]))]

/-! ### Lemmas about ASCII lowercasing -/

/-- Lowercasing preserves scheme characters. -/
theorem asciiLower_schemeChar (c : Char) (h : schemeChar c = true) :
    schemeChar (asciiLower c) = true := by
  unfold asciiLower
  by_cases hu : 65 ≤ c.toNat ∧ c.toNat ≤ 90
  · rw [if_pos hu]
    obtain ⟨h1, h2⟩ := hu
    set n := c.toNat with hn
    interval_cases n <;> decide
  · rw [if_neg hu]
    exact h

/-- Lowercasing preserves ASCII letters. -/
theorem asciiLower_alpha (c : Char) (h : isAsciiAlpha c = true) :
    isAsciiAlpha (asciiLower c) = true := by
  unfold asciiLower
  by_cases hu : 65 ≤ c.toNat ∧ c.toNat ≤ 90
  · rw [if_pos hu]
    obtain ⟨h1, h2⟩ := hu
    set n := c.toNat with hn
    interval_cases n <;> decide
  · rw [if_neg hu]
    exact h

/-- Lowercasing is idempotent. -/
theorem asciiLower_idem (c : Char) :
    asciiLower (asciiLower c) = asciiLower c := by
  by_cases hu : 65 ≤ c.toNat ∧ c.toNat ≤ 90
  · rw [show asciiLower c = Char.ofNat (c.toNat + 32) from if_pos hu]
    obtain ⟨h1, h2⟩ := hu
    set n := c.toNat with hn
    interval_cases n <;> decide
  · rw [show asciiLower c = c from if_neg hu]
    exact if_neg hu

/-- Lowercasing a scheme character yields no tab/newline/CR. -/
theorem asciiLower_clean (c : Char) (h : unsafeByte c = false) :
    unsafeByte (asciiLower c) = false := by
  unfold asciiLower
  by_cases hu : 65 ≤ c.toNat ∧ c.toNat ≤ 90
  · rw [if_pos hu]
    obtain ⟨h1, h2⟩ := hu
    set n := c.toNat with hn
    interval_cases n <;> decide
  · rw [if_neg hu]
    exact h

/-! ### The no-adjacent-slashes invariant of collapsed paths -/

/-- No two adjacent slashes anywhere in the list. -/
def noDS : List Char → Bool
  | [] => true
  | [_] => true
  | a :: b :: t => !(a == '/' && b == '/') && noDS (b :: t)

/-- `collapseSlashes` only keeps characters of its input. -/
theorem mem_collapseSlashes :
    ∀ (l : List Char) (c : Char), c ∈ collapseSlashes l → c ∈ l := by
  intro l
  induction l with
  | nil => intro c h; simp [collapseSlashes] at h
  | cons d ds ih =>
      intro c h
      cases ds with
      | nil => simpa [collapseSlashes] using h
      | cons e es =>
          simp only [collapseSlashes] at h
          by_cases hde : (d == '/' && e == '/') = true
          · rw [if_pos hde] at h
            exact List.mem_cons_of_mem d (ih c h)
          · rw [if_neg hde] at h
            rcases List.mem_cons.mp h with he | hm
            · rw [he]
              exact List.mem_cons_self _ _
            · exact List.mem_cons_of_mem d (ih c hm)

/-- The head of a `dropWhile (· == '/')` result is not a slash. -/
theorem dropWhile_slash_head :
    ∀ (l : List Char) (c : Char) (t : List Char),
      l.dropWhile (· == '/') = c :: t → (c == '/') = false := by
  intro l
  induction l with
  | nil => intro c t h; simp [List.dropWhile] at h
  | cons d ds ih =>
      intro c t h
      rw [List.dropWhile] at h
      by_cases hd : (d == '/') = true
      · rw [hd] at h
        exact ih c t h
      · have hd2 : (d == '/') = false := by
          cases hb : (d == '/')
          · rfl
          · exact absurd hb hd
        rw [hd2] at h
        simp only [List.cons.injEq] at h
        rw [← h.1]
        exact hd2

/-- `collapseSlashes` preserves the head character. -/
theorem collapseSlashes_head : ∀ (l : List Char),
    (collapseSlashes l).head? = l.head? := by
  intro l
  induction l with
  | nil => rfl
  | cons d ds ih =>
      cases ds with
      | nil => rfl
      | cons e es =>
          simp only [collapseSlashes]
          by_cases hde : (d == '/' && e == '/') = true
          · rw [if_pos hde, ih]
            have hd : d = '/' := by simpa using (Bool.and_eq_true_iff.mp hde).1
            have he2 : e = '/' := by simpa using (Bool.and_eq_true_iff.mp hde).2
            rw [hd, he2]
            rfl
          · rw [if_neg hde]
            rfl

/-- `collapseSlashes` leaves no adjacent slashes. -/
theorem noDS_collapseSlashes : ∀ (l : List Char),
    noDS (collapseSlashes l) = true := by
  intro l
  induction l with
  | nil => rfl
  | cons d ds ih =>
      cases ds with
      | nil => rfl
      | cons e es =>
          simp only [collapseSlashes]
          by_cases hde : (d == '/' && e == '/') = true
          · rw [if_pos hde]
            exact ih
          · rw [if_neg hde]
            cases hc : collapseSlashes (e :: es) with
            | nil => rfl
            | cons x xs =>
                have hx : x = e := by
                  have hh := collapseSlashes_head (e :: es)
                  rw [hc] at hh
                  simpa using hh
                subst hx
                rw [hc] at ih
                show (!(d == '/' && x == '/') && noDS (x :: xs)) = true
                rw [ih]
                have hf : (d == '/' && x == '/') = false := by
                  cases hb : (d == '/' && x == '/')
                  · rfl
                  · exact absurd hb hde
                rw [hf]
                rfl

/-- The tail of a no-adjacent-slashes list also has none. -/
theorem noDS_tail (a : Char) (t : List Char) (h : noDS (a :: t) = true) :
    noDS t = true := by
  cases t with
  | nil => rfl
  | cons b u =>
      have hh : (!(a == '/' && b == '/') && noDS (b :: u)) = true := h
      exact (Bool.and_eq_true_iff.mp hh).2

/-- `dropWhile (· == '/')` is the identity when the head is not a
slash. -/
theorem dropWhile_slash_eq_self (l : List Char)
    (h : ∀ c t, l = c :: t → (c == '/') = false) :
    l.dropWhile (· == '/') = l := by
  cases l with
  | nil => rfl
  | cons d ds =>
      rw [List.dropWhile]
      rw [h d ds rfl]

/-- A no-adjacent-slashes list is a fixed point of `collapseSlashes`. -/
theorem collapseSlashes_eq_self :
    ∀ (l : List Char), noDS l = true → collapseSlashes l = l := by
  intro l
  induction l with
  | nil => intro _; rfl
  | cons d ds ih =>
      intro h
      cases ds with
      | nil => rfl
      | cons e es =>
          simp only [collapseSlashes]
          have h1 : (!(d == '/' && e == '/') && noDS (e :: es)) = true := h
          obtain ⟨ha, hb⟩ := Bool.and_eq_true_iff.mp h1
          have hf : (d == '/' && e == '/') = false := by
            cases hx : (d == '/' && e == '/')
            · rfl
            · rw [hx] at ha
              simp at ha
          rw [if_neg (by simp [hf])]
          rw [ih hb]

/-- A prefix of a no-adjacent-slashes list also has none. -/
theorem noDS_append_left :
    ∀ (a b : List Char), noDS (a ++ b) = true → noDS a = true := by
  intro a
  induction a with
  | nil => intro b _; rfl
  | cons x xs ih =>
      intro b h
      cases xs with
      | nil => rfl
      | cons y ys =>
          have hh : (!(x == '/' && y == '/') && noDS (y :: (ys ++ b))) = true := h
          obtain ⟨h1, h2⟩ := Bool.and_eq_true_iff.mp hh
          show (!(x == '/' && y == '/') && noDS (y :: ys)) = true
          rw [h1, ih b h2]
          rfl

/-- A no-adjacent-slashes list never starts with two slashes. -/
theorem noDS_take2 (l : List Char) (h : noDS l = true) :
    l.take 2 ≠ ['/', '/'] := by
  intro habs
  cases l with
  | nil => simp at habs
  | cons a t =>
      cases t with
      | nil => simp at habs
      | cons b u =>
          simp only [List.take, List.cons.injEq] at habs
          obtain ⟨ha, hb, _⟩ := habs
          subst ha
          have hh : (!('/' == '/' && b == '/') && noDS (b :: u)) = true := h
          have h1 := (Bool.and_eq_true_iff.mp hh).1
          rw [hb] at h1
          simp at h1
/-- A suffix of a no-adjacent-slashes list also has none. -/
theorem noDS_append_right :
    ∀ (a b : List Char), noDS (a ++ b) = true → noDS b = true := by
  intro a
  induction a with
  | nil => intro b h; exact h
  | cons x xs ih =>
      intro b h
      exact ih b (noDS_tail x (xs ++ b) h)

/-- `stripTrailingSlash` only keeps characters of its input. -/
theorem mem_stripTrailingSlash (l : List Char) (c : Char)
    (h : c ∈ stripTrailingSlash l) : c ∈ l := by
  unfold stripTrailingSlash at h
  split at h
  · exact (List.dropLast_sublist l).mem h
  · exact h

/-- `stripTrailingSlash` preserves the no-adjacent-slashes invariant. -/
theorem noDS_stripTrailingSlash (l : List Char) (h : noDS l = true) :
    noDS (stripTrailingSlash l) = true := by
  unfold stripTrailingSlash
  split
  next hc =>
      have hne : l ≠ [] := by
        intro he
        rw [he] at hc
        simp at hc
      have hsplit := List.dropLast_append_getLast hne
      apply noDS_append_left l.dropLast [l.getLast hne]
      rw [hsplit]
      exact h
  next hc => exact h

/-- A stripped no-adjacent-slashes list ending in a slash is the root
path. -/
theorem stripTrailingSlash_last (l : List Char) (h : noDS l = true)
    (he : (stripTrailingSlash l).getLast? = some '/') :
    stripTrailingSlash l = ['/'] := by
  by_cases hc : l.length > 1 ∧ l.getLast? = some '/'
  · have hdef : stripTrailingSlash l = l.dropLast := by
      unfold stripTrailingSlash
      rw [if_pos hc]
    rw [hdef] at he ⊢
    exfalso
    obtain ⟨hlen, hlast⟩ := hc
    have hne : l ≠ [] := by
      intro h0
      rw [h0] at hlen
      simp at hlen
    have hdne : l.dropLast ≠ [] := by
      intro h0
      have hz : l.dropLast.length = 0 := by rw [h0]; rfl
      rw [List.length_dropLast] at hz
      omega
    have h2 : l.dropLast.getLast hdne = '/' := by
      have hg := List.getLast?_eq_getLast l.dropLast hdne
      rw [hg] at he
      exact Option.some.inj he
    have h4 : l.getLast hne = '/' := by
      have hg := List.getLast?_eq_getLast l hne
      rw [hg] at hlast
      exact Option.some.inj hlast
    have h5 : l = l.dropLast.dropLast ++ ['/', '/'] := by
      conv_lhs => rw [← List.dropLast_append_getLast hne, h4,
        ← List.dropLast_append_getLast hdne, h2]
      simp
    have h6 := noDS_append_right l.dropLast.dropLast ['/', '/']
      (by rw [← h5]; exact h)
    simp [noDS] at h6
  · have hdef : stripTrailingSlash l = l := by
      unfold stripTrailingSlash
      rw [if_neg hc]
    rw [hdef] at he ⊢
    push_neg at hc
    have hne : l ≠ [] := by
      intro h0
      rw [h0] at he
      simp at he
    have hlen1 : l.length ≤ 1 := by
      by_contra hgt
      exact (hc (by omega)) he
    have hpos : 0 < l.length := List.length_pos.mpr hne
    have hlen : l.length = 1 := by omega
    obtain ⟨a, ha⟩ := List.length_eq_one.mp hlen
    subst ha
    have ha2 : a = '/' := by simpa using he
    rw [ha2]

/-- `stripTrailingSlash` is the identity when its condition fails. -/
theorem stripTrailingSlash_eq_self (l : List Char)
    (hc : ¬(l.length > 1 ∧ l.getLast? = some '/')) :
    stripTrailingSlash l = l := by
  unfold stripTrailingSlash
  rw [if_neg hc]

/-- The normalized path is a fixed point of collapse-then-strip. -/
theorem normPath_idem (p : List Char) :
    stripTrailingSlash (collapseSlashes
        (stripTrailingSlash (collapseSlashes p)))
      = stripTrailingSlash (collapseSlashes p) := by
  have hnds : noDS (stripTrailingSlash (collapseSlashes p)) = true :=
    noDS_stripTrailingSlash _ (noDS_collapseSlashes p)
  rw [collapseSlashes_eq_self _ hnds]
  have hcond : ¬((stripTrailingSlash (collapseSlashes p)).length > 1 ∧
      (stripTrailingSlash (collapseSlashes p)).getLast? = some '/') := by
    rintro ⟨hlen, hlast⟩
    have hq := stripTrailingSlash_last (collapseSlashes p)
      (noDS_collapseSlashes p) hlast
    rw [hq] at hlen
    simp at hlen
  exact stripTrailingSlash_eq_self _ hcond

/-! ### Sanitization lemmas -/

/-- Sanitization is the identity on clean inputs. -/
theorem sanitizeUrl_eq_self (l : List Char)
    (hhead : ∀ c t, l = c :: t → isC0OrSpace c = false)
    (hclean : ∀ c ∈ l, unsafeByte c = false) :
    sanitizeUrl l = l := by
  unfold sanitizeUrl
  have hdw : l.dropWhile isC0OrSpace = l := by
    cases l with
    | nil => rfl
    | cons c t =>
        rw [List.dropWhile]
        rw [hhead c t rfl]
  rw [hdw]
  rw [List.filter_eq_self.mpr]
  intro a ha
  simp [hclean a ha]

/-- Sanitized characters come from the input and are clean. -/
theorem mem_sanitizeUrl (l : List Char) (c : Char) (h : c ∈ sanitizeUrl l) :
    c ∈ l ∧ unsafeByte c = false := by
  unfold sanitizeUrl at h
  have h2 := List.mem_filter.mp h
  refine ⟨(List.dropWhile_sublist _).mem h2.1, ?_⟩
  simpa using h2.2

/-! ### Scheme-splitting lemmas -/

/-- A non-empty, lowercased, well-formed scheme. -/
def validLowerScheme (s : List Char) : Prop :=
  (∃ c cs, s = c :: cs ∧ isAsciiAlpha c = true) ∧
  (∀ c ∈ s, schemeChar c = true) ∧ s.map asciiLower = s

/-- What a `splitScheme` output means. -/
theorem splitScheme_cases (url s rest : List Char)
    (h : splitScheme url = (s, rest)) :
    (s = [] ∧ rest = url) ∨
    (∃ before, url = before ++ ':' :: rest ∧ ':' ∉ before ∧
      s = before.map asciiLower ∧
      (∃ c cs, before = c :: cs ∧ isAsciiAlpha c = true) ∧
      (∀ c ∈ before, schemeChar c = true)) := by
  unfold splitScheme at h
  cases hsp : splitFirst ':' url with
  | none =>
      rw [hsp] at h
      dsimp only at h
      simp only [Prod.mk.injEq] at h
      exact Or.inl ⟨h.1.symm, h.2.symm⟩
  | some p =>
      obtain ⟨before, after⟩ := p
      obtain ⟨hurl, hnm⟩ := splitFirst_eq_some ':' url before after hsp
      rw [hsp] at h
      dsimp only at h
      cases hb : before with
      | nil =>
          rw [hb] at h
          dsimp only at h
          simp only [Prod.mk.injEq] at h
          exact Or.inl ⟨h.1.symm, h.2.symm⟩
      | cons c cs =>
          rw [hb] at h
          dsimp only at h
          by_cases hcond : isAsciiAlpha c ∧ (c :: cs).all schemeChar
          · rw [if_pos hcond] at h
            simp only [Prod.mk.injEq] at h
            right
            refine ⟨before, ?_, hnm, ?_, ⟨c, cs, hb, hcond.1⟩, ?_⟩
            · rw [hurl, ← h.2]
            · rw [hb, ← h.1]
            · intro x hx
              rw [hb] at hx
              exact List.all_eq_true.mp hcond.2 x hx
          · rw [if_neg hcond] at h
            simp only [Prod.mk.injEq] at h
            exact Or.inl ⟨h.1.symm, h.2.symm⟩

/-- A lowered well-formed raw scheme is a valid lowered scheme. -/
theorem validLowerScheme_map (before : List Char)
    (hhead : ∃ c cs, before = c :: cs ∧ isAsciiAlpha c = true)
    (hall : ∀ c ∈ before, schemeChar c = true) :
    validLowerScheme (before.map asciiLower) := by
  obtain ⟨c, cs, hb, halpha⟩ := hhead
  subst hb
  refine ⟨⟨asciiLower c, cs.map asciiLower, by simp, asciiLower_alpha c halpha⟩
    , ?_, ?_⟩
  · intro x hx
    obtain ⟨y, hy, hxy⟩ := List.mem_map.mp hx
    rw [← hxy]
    exact asciiLower_schemeChar y (hall y hy)
  · rw [List.map_map]
    apply List.map_congr_left
    intro x _
    exact asciiLower_idem x

/-- `splitScheme` recovers a valid lowered scheme from the reassembled
string. -/
theorem splitScheme_append (s rest : List Char) (hv : validLowerScheme s) :
    splitScheme (s ++ ':' :: rest) = (s, rest) := by
  obtain ⟨⟨c, cs, hs, halpha⟩, hall, hidem⟩ := hv
  have hns : ':' ∉ s := by
    intro hm
    have hsc := hall ':' hm
    simp [schemeChar, isAsciiAlpha] at hsc
  unfold splitScheme
  rw [splitFirst_append ':' s rest hns]
  subst hs
  dsimp only
  rw [if_pos ⟨halpha, List.all_eq_true.mpr (fun x hx => hall x hx)⟩]
  rw [hidem]

/-! ### Character-class facts -/

/-- ASCII letters sit at code point 65 or above. -/
theorem isAsciiAlpha_ge (c : Char) (h : isAsciiAlpha c = true) :
    65 ≤ c.toNat := by
  simp [isAsciiAlpha, Char.isUpper, Char.isLower] at h
  rcases h with ⟨h1, _⟩ | ⟨h1, _⟩
  · exact h1
  · have h2 : 97 ≤ c.toNat := h1
    omega

/-- An ASCII letter is not a C0 control character or space. -/
theorem isAsciiAlpha_not_c0 (c : Char) (h : isAsciiAlpha c = true) :
    isC0OrSpace c = false := by
  have := isAsciiAlpha_ge c h
  simp [isC0OrSpace]
  omega

/-- A character at code point 33 or above is not tab/newline/CR. -/
theorem clean_of_ge (c : Char) (h : 33 ≤ c.toNat) : unsafeByte c = false := by
  have h9 : c ≠ '\t' := by intro he; subst he; simp at h
  have h10 : c ≠ '\n' := by intro he; subst he; simp at h
  have h13 : c ≠ '\r' := by intro he; subst he; simp at h
  simp [unsafeByte, h9, h10, h13]

/-- Scheme characters sit at code point 43 or above. -/
theorem schemeChar_ge (c : Char) (h : schemeChar c = true) : 43 ≤ c.toNat := by
  simp only [schemeChar, Bool.or_eq_true, beq_iff_eq] at h
  rcases h with (((ha | hd) | h1) | h1) | h1
  · have := isAsciiAlpha_ge c ha
    omega
  · simp [Char.isDigit] at hd
    have h2 : 48 ≤ c.toNat := hd.1
    omega
  · subst h1; decide
  · subst h1; decide
  · subst h1; decide

/-- Scheme characters are never tab/newline/CR. -/
theorem schemeChar_clean (c : Char) (h : schemeChar c = true) :
    unsafeByte c = false :=
  clean_of_ge c (by have := schemeChar_ge c h; omega)

/-! ### The stages of `urlsplit`, named -/

/-- The netloc stage of `urlsplit`: a `//` prefix opens a netloc section
running to the first delimiter. -/
def netlocSplit (l : List Char) : List Char × List Char :=
  match l with
  | '/' :: '/' :: tail => takeUntilDelim tail
  | rest => ([], rest)

/-- The fragment stage: split at the first `#`, if any. -/
def fragSplit (l : List Char) : List Char × List Char :=
  match splitFirst '#' l with
  | some (a, b) => (a, b)
  | none => (l, [])

/-- The query stage: split at the first `?`, if any. -/
def querySplit (l : List Char) : List Char × List Char :=
  match splitFirst '?' l with
  | some (a, b) => (a, b)
  | none => (l, [])

/-- `urlsplitCore` written as the composition of its named stages. -/
theorem urlsplitCore_stages (u : List Char) :
    urlsplitCore u =
      (if ('[' ∈ (netlocSplit (splitScheme (sanitizeUrl u)).2).1 ∧
            ']' ∉ (netlocSplit (splitScheme (sanitizeUrl u)).2).1) ∨
          (']' ∈ (netlocSplit (splitScheme (sanitizeUrl u)).2).1 ∧
            '[' ∉ (netlocSplit (splitScheme (sanitizeUrl u)).2).1) then
        .error ()
      else
        .ok { scheme := (splitScheme (sanitizeUrl u)).1
              netloc := (netlocSplit (splitScheme (sanitizeUrl u)).2).1
              path := (querySplit (fragSplit
                (netlocSplit (splitScheme (sanitizeUrl u)).2).2).1).1
              query := (querySplit (fragSplit
                (netlocSplit (splitScheme (sanitizeUrl u)).2).2).1).2
              fragment := (fragSplit
                (netlocSplit (splitScheme (sanitizeUrl u)).2).2).2 }) := rfl

/-- A `//` prefix enters the netloc stage. -/
theorem netlocSplit_double_slash (tail : List Char) :
    netlocSplit ('/' :: '/' :: tail) = takeUntilDelim tail := rfl

/-- The two behaviours of the netloc stage. -/
theorem netlocSplit_cases (l : List Char) :
    (∃ tail, l = '/' :: '/' :: tail ∧
        netlocSplit l = takeUntilDelim tail) ∨
    (l.take 2 ≠ ['/', '/'] ∧ netlocSplit l = ([], l)) := by
  unfold netlocSplit
  split
  next tail => exact Or.inl ⟨tail, rfl, rfl⟩
  next h =>
      refine Or.inr ⟨?_, rfl⟩
      intro habs
      cases l with
      | nil => simp at habs
      | cons a t =>
          cases t with
          | nil => simp at habs
          | cons b u =>
              simp only [List.take, List.cons.injEq] at habs
              obtain ⟨ha, hb, _⟩ := habs
              subst ha
              subst hb
              exact h u rfl

/-- Without a `//` prefix the netloc stage is trivial. -/
theorem netlocSplit_no_slash (l : List Char) (h : l.take 2 ≠ ['/', '/']) :
    netlocSplit l = ([], l) := by
  rcases netlocSplit_cases l with ⟨tail, hl, _⟩ | ⟨_, h2⟩
  · subst hl
    simp at h
  · exact h2

/-- The two behaviours of the fragment stage. -/
theorem fragSplit_cases (l : List Char) :
    ('#' ∉ l ∧ fragSplit l = (l, [])) ∨
    (∃ a b, l = a ++ '#' :: b ∧ '#' ∉ a ∧ fragSplit l = (a, b)) := by
  unfold fragSplit
  cases hsp : splitFirst '#' l with
  | none => exact Or.inl ⟨splitFirst_eq_none '#' l hsp, rfl⟩
  | some p =>
      obtain ⟨a, b⟩ := p
      obtain ⟨hl, hnm⟩ := splitFirst_eq_some '#' l a b hsp
      exact Or.inr ⟨a, b, hl, hnm, rfl⟩

/-- The fragment stage is trivial without a `#`. -/
theorem fragSplit_no_hash (l : List Char) (h : '#' ∉ l) :
    fragSplit l = (l, []) := by
  unfold fragSplit
  rw [splitFirst_none_of_not_mem '#' l h]

/-- The two behaviours of the query stage. -/
theorem querySplit_cases (l : List Char) :
    ('?' ∉ l ∧ querySplit l = (l, [])) ∨
    (∃ a b, l = a ++ '?' :: b ∧ '?' ∉ a ∧ querySplit l = (a, b)) := by
  unfold querySplit
  cases hsp : splitFirst '?' l with
  | none => exact Or.inl ⟨splitFirst_eq_none '?' l hsp, rfl⟩
  | some p =>
      obtain ⟨a, b⟩ := p
      obtain ⟨hl, hnm⟩ := splitFirst_eq_some '?' l a b hsp
      exact Or.inr ⟨a, b, hl, hnm, rfl⟩

/-- The query stage is trivial without a `?`. -/
theorem querySplit_no_q (l : List Char) (h : '?' ∉ l) :
    querySplit l = (l, []) := by
  unfold querySplit
  rw [splitFirst_none_of_not_mem '?' l h]

/-- The query stage splits at the first `?`. -/
theorem querySplit_append (a b : List Char) (h : '?' ∉ a) :
    querySplit (a ++ '?' :: b) = (a, b) := by
  unfold querySplit
  rw [splitFirst_append '?' a b h]

/-- What a successful `urlsplit` guarantees about its result: a valid
(or empty) lowered scheme, a delimiter-free netloc with balanced
brackets, a `#`/`?`-free path, a `#`-free query, and every component
character drawn from the (sanitized) input. -/
structure SplitInv (u : List Char) (r : UrlSplitResult) : Prop where
  scheme_ok : r.scheme = [] ∨ validLowerScheme r.scheme
  netloc_delim : ∀ c ∈ r.netloc, isDelim c = false
  netloc_brackets :
    ¬(('[' ∈ r.netloc ∧ ']' ∉ r.netloc) ∨ (']' ∈ r.netloc ∧ '[' ∉ r.netloc))
  path_hash : '#' ∉ r.path
  path_q : '?' ∉ r.path
  query_hash : '#' ∉ r.query
  netloc_sub : ∀ c ∈ r.netloc, c ∈ u ∧ unsafeByte c = false
  path_sub : ∀ c ∈ r.path, c ∈ u ∧ unsafeByte c = false
  query_sub : ∀ c ∈ r.query, c ∈ u ∧ unsafeByte c = false

/-- A successful `urlsplit` satisfies the component invariants. -/
theorem urlsplitCore_inv (u : List Char) (r : UrlSplitResult)
    (h : urlsplitCore u = .ok r) : SplitInv u r := by
  rw [urlsplitCore_stages] at h
  obtain ⟨s1, s2, hss⟩ : ∃ a b, splitScheme (sanitizeUrl u) = (a, b) :=
    ⟨_, _, rfl⟩
  rw [hss] at h
  dsimp only at h
  obtain ⟨n1, n2, hns⟩ : ∃ a b, netlocSplit s2 = (a, b) := ⟨_, _, rfl⟩
  rw [hns] at h
  dsimp only at h
  obtain ⟨f1, f2, hfs⟩ : ∃ a b, fragSplit n2 = (a, b) := ⟨_, _, rfl⟩
  rw [hfs] at h
  dsimp only at h
  obtain ⟨q1, q2, hqs⟩ : ∃ a b, querySplit f1 = (a, b) := ⟨_, _, rfl⟩
  rw [hqs] at h
  dsimp only at h
  have hsc := splitScheme_cases (sanitizeUrl u) s1 s2 hss
  have hmem2 : ∀ c ∈ s2, c ∈ sanitizeUrl u := by
    rcases hsc with ⟨_, h2⟩ | ⟨before, hurl, _, _, _, _⟩
    · intro c hc
      rwa [h2] at hc
    · intro c hc
      rw [hurl]
      exact List.mem_append.mpr (Or.inr (List.mem_cons_of_mem _ hc))
  have hnfacts : (∀ c ∈ n1, isDelim c = false ∨ n1 = []) ∧
      (∀ c ∈ n1, c ∈ s2) ∧ (∀ c ∈ n2, c ∈ s2) ∧
      (∀ c ∈ n1, isDelim c = false) := by
    rcases netlocSplit_cases s2 with ⟨tail, hs2, he⟩ | ⟨_, he⟩ <;>
      rw [hns] at he
    · have hspec := takeUntilDelim_spec tail
      rw [← he] at hspec
      dsimp only at hspec
      obtain ⟨hsum, hdelim, _⟩ := hspec
      have hmemtail : ∀ c ∈ tail, c ∈ s2 := by
        intro c hc
        rw [hs2]
        exact List.mem_cons_of_mem _ (List.mem_cons_of_mem _ hc)
      refine ⟨fun c hc => Or.inl (hdelim c hc), ?_, ?_, hdelim⟩
      · intro c hc
        exact hmemtail c (by rw [← hsum]; exact List.mem_append.mpr (.inl hc))
      · intro c hc
        exact hmemtail c (by rw [← hsum]; exact List.mem_append.mpr (.inr hc))
    · simp only [Prod.mk.injEq] at he
      obtain ⟨hn1, hn2⟩ := he
      subst hn1
      subst hn2
      exact ⟨by simp, by simp, fun c hc => hc, by simp⟩
  obtain ⟨_, hn1mem, hn2mem, hndelim⟩ := hnfacts
  have hffacts : '#' ∉ f1 ∧ (∀ c ∈ f1, c ∈ n2) ∧ (∀ c ∈ f2, c ∈ n2) := by
    rcases fragSplit_cases n2 with ⟨hnh, he2⟩ | ⟨a, b, hn2, hna, he2⟩ <;>
      rw [hfs] at he2 <;> simp only [Prod.mk.injEq] at he2 <;>
      obtain ⟨hf1, hf2⟩ := he2
    · subst hf1
      subst hf2
      exact ⟨hnh, fun c hc => hc, by simp⟩
    · subst hf1
      subst hf2
      refine ⟨hna, ?_, ?_⟩
      · intro c hc
        rw [hn2]
        exact List.mem_append.mpr (.inl hc)
      · intro c hc
        rw [hn2]
        exact List.mem_append.mpr (.inr (List.mem_cons_of_mem _ hc))
  obtain ⟨hf1h, hf1mem, hf2mem⟩ := hffacts
  have hqfacts : '?' ∉ q1 ∧ (∀ c ∈ q1, c ∈ f1) ∧ (∀ c ∈ q2, c ∈ f1) := by
    rcases querySplit_cases f1 with ⟨hnq, he2⟩ | ⟨a, b, hf1e, hna, he2⟩ <;>
      rw [hqs] at he2 <;> simp only [Prod.mk.injEq] at he2 <;>
      obtain ⟨hq1, hq2⟩ := he2
    · subst hq1
      subst hq2
      exact ⟨hnq, fun c hc => hc, by simp⟩
    · subst hq1
      subst hq2
      refine ⟨hna, ?_, ?_⟩
      · intro c hc
        rw [hf1e]
        exact List.mem_append.mpr (.inl hc)
      · intro c hc
        rw [hf1e]
        exact List.mem_append.mpr (.inr (List.mem_cons_of_mem _ hc))
  obtain ⟨hq1q, hq1mem, hq2mem⟩ := hqfacts
  have hsan : ∀ c ∈ s2, c ∈ u ∧ unsafeByte c = false := fun c hc =>
    mem_sanitizeUrl u c (hmem2 c hc)
  split at h
  · exact absurd h (by simp)
  next hbr =>
    rw [Except.ok.injEq] at h
    subst h
    refine ⟨?_, hndelim, hbr, ?_, hq1q, ?_, ?_, ?_, ?_⟩
    · rcases hsc with ⟨h1, _⟩ | ⟨before, _, _, hs1, hhead, hall⟩
      · exact Or.inl h1
      · rw [hs1]
        exact Or.inr (validLowerScheme_map before hhead hall)
    · exact fun hm => hf1h (hq1mem _ hm)
    · exact fun hm => hf1h (hq2mem _ hm)
    · exact fun c hc => hsan c (hn1mem c hc)
    · exact fun c hc => hsan c (hn2mem c (hf1mem c (hq1mem c hc)))
    · exact fun c hc => hsan c (hn2mem c (hf1mem c (hq2mem c hc)))

/-- The scheme a successful `urlsplit` reports. -/
theorem urlsplitCore_scheme (u : List Char) (r : UrlSplitResult)
    (h : urlsplitCore u = .ok r) :
    r.scheme = (splitScheme (sanitizeUrl u)).1 := by
  rw [urlsplitCore_stages] at h
  split at h
  · exact absurd h (by simp)
  · rw [Except.ok.injEq] at h
    subst h
    rfl

/-- What a successful `urlparse` of a semicolon-free input guarantees:
the `urlsplit` invariants, empty params, and a semicolon-free path. -/
structure ParseInv (r : UrlParseResult) : Prop where
  scheme_ok : r.scheme = [] ∨ validLowerScheme r.scheme
  netloc_delim : ∀ c ∈ r.netloc, isDelim c = false
  netloc_brackets :
    ¬(('[' ∈ r.netloc ∧ ']' ∉ r.netloc) ∨ (']' ∈ r.netloc ∧ '[' ∉ r.netloc))
  path_hash : '#' ∉ r.path
  path_q : '?' ∉ r.path
  path_semi : ';' ∉ r.path
  params_nil : r.params = []
  query_hash : '#' ∉ r.query
  netloc_clean : ∀ c ∈ r.netloc, unsafeByte c = false
  path_clean : ∀ c ∈ r.path, unsafeByte c = false
  query_clean : ∀ c ∈ r.query, unsafeByte c = false

/-- A successful `urlparse` of a semicolon-free input satisfies the
component invariants. -/
theorem urlparseCore_inv (u : List Char) (r : UrlParseResult)
    (hsemi : ';' ∉ u) (h : urlparseCore u = .ok r) : ParseInv r := by
  unfold urlparseCore at h
  cases hus : urlsplitCore u with
  | error e =>
      rw [hus] at h
      exact absurd h (by simp)
  | ok r0 =>
      rw [hus] at h
      dsimp only at h
      have hinv := urlsplitCore_inv u r0 hus
      have hps : ';' ∉ r0.path := fun hm => hsemi (hinv.path_sub ';' hm).1
      rw [if_neg (fun hand => hps hand.2)] at h
      dsimp only at h
      rw [Except.ok.injEq] at h
      subst h
      exact ⟨hinv.scheme_ok, hinv.netloc_delim, hinv.netloc_brackets,
        hinv.path_hash, hinv.path_q, hps, rfl, hinv.query_hash,
        fun c hc => (hinv.netloc_sub c hc).2,
        fun c hc => (hinv.path_sub c hc).2,
        fun c hc => (hinv.query_sub c hc).2⟩

/-- The scheme a successful `urlparse` reports. -/
theorem urlparseCore_scheme (u : List Char) (r : UrlParseResult)
    (h : urlparseCore u = .ok r) :
    r.scheme = (splitScheme (sanitizeUrl u)).1 := by
  unfold urlparseCore at h
  cases hus : urlsplitCore u with
  | error e =>
      rw [hus] at h
      exact absurd h (by simp)
  | ok r0 =>
      rw [hus] at h
      dsimp only at h
      rw [Except.ok.injEq] at h
      subst h
      exact urlsplitCore_scheme u r0 hus

/-- The query suffix `urlunsplit` appends: `?query` when non-empty. -/
def queryTail (q : List Char) : List Char :=
  if q ≠ [] then '?' :: q else []

/-- The path adjustment of `urlunsplit`'s netloc branch: prepend `/`
to a non-empty path that does not already start with one. -/
def slashPath (p : List Char) : List Char :=
  if p ≠ [] ∧ p.take 1 ≠ ['/'] then '/' :: p else p

/-- Characters of the query suffix. -/
theorem mem_queryTail (q : List Char) (c : Char) (h : c ∈ queryTail q) :
    c = '?' ∨ c ∈ q := by
  unfold queryTail at h
  split at h
  · rcases List.mem_cons.mp h with he | hm
    · exact Or.inl he
    · exact Or.inr hm
  · simp at h

/-- The adjusted path is empty or starts with a slash. -/
theorem slashPath_shape (p : List Char) :
    slashPath p = [] ∨ ∃ t, slashPath p = '/' :: t := by
  unfold slashPath
  split
  · exact Or.inr ⟨p, rfl⟩
  next hc =>
      push_neg at hc
      cases hp : p with
      | nil => exact Or.inl rfl
      | cons a t =>
          have h1 : p.take 1 = ['/'] := hc (by rw [hp]; simp)
          rw [hp] at h1
          simp only [List.take, List.cons.injEq] at h1
          rw [h1.1]
          exact Or.inr ⟨t, rfl⟩

/-- Characters of the adjusted path. -/
theorem mem_slashPath (p : List Char) (c : Char) (h : c ∈ slashPath p) :
    c = '/' ∨ c ∈ p := by
  unfold slashPath at h
  split at h
  · rcases List.mem_cons.mp h with he | hm
    · exact Or.inl he
    · exact Or.inr hm
  · exact Or.inr h

/-- Path adjustment is idempotent. -/
theorem slashPath_idem (p : List Char) :
    slashPath (slashPath p) = slashPath p := by
  rcases slashPath_shape p with h | ⟨t, h⟩ <;> rw [h]
  · simp [slashPath]
  · unfold slashPath
    rw [if_neg]
    rintro ⟨_, h2⟩
    exact h2 (by simp)

/-- The adjusted path keeps the no-adjacent-slashes invariant. -/
theorem noDS_slashPath (p : List Char) (h : noDS p = true) :
    noDS (slashPath p) = true := by
  unfold slashPath
  split
  next hc =>
      cases hp : p with
      | nil => rfl
      | cons a t =>
          have h1 : (a :: t).take 1 ≠ ['/'] := by rw [← hp]; exact hc.2
          have ha : (a == '/') = false := by
            cases hb : (a == '/')
            · rfl
            · exfalso
              apply h1
              simp only [List.take]
              have : a = '/' := by simpa using hb
              rw [this]
          show (!('/' == '/' && a == '/') && noDS (a :: t)) = true
      -- noDS over '/'::a::t
          rw [ha, ← hp]
          simpa using h
  · exact h

/-- A list made of a no-adjacent-slashes part and an optional `?query`
suffix never starts with two slashes. -/
theorem take_two_ne (p : List Char) (hds : noDS p = true) (q : List Char) :
    (p ++ queryTail q).take 2 ≠ ['/', '/'] := by
  have hqt : queryTail q = [] ∨ ∃ t, queryTail q = '?' :: t := by
    unfold queryTail
    split
    · exact Or.inr ⟨q, rfl⟩
    · exact Or.inl rfl
  cases p with
  | nil =>
      rcases hqt with h | ⟨t, h⟩ <;> rw [List.nil_append, h] <;> intro habs
      · simp at habs
      · cases t with
        | nil => simp at habs
        | cons b u =>
            simp only [List.take, List.cons.injEq] at habs
            exact absurd habs.1 (by decide)
  | cons a t =>
      cases t with
      | nil =>
          rcases hqt with h | ⟨t2, h⟩ <;> rw [List.cons_append, List.nil_append, h] <;>
            intro habs <;> simp only [List.take, List.cons.injEq] at habs
          · exact absurd habs.2 (by simp)
          · exact absurd habs.2.1 (by decide)
      | cons b u =>
          intro habs
          simp only [List.cons_append, List.take, List.cons.injEq] at habs
          obtain ⟨ha, hb, _⟩ := habs
          subst ha
          have hh : (!('/' == '/' && b == '/') && noDS (b :: u)) = true := hds
          have h1 := (Bool.and_eq_true_iff.mp hh).1
          rw [hb] at h1
          simp at h1

/-- Re-splitting a reassembled URL with a `//` netloc section recovers
its components. -/
theorem reparse_netloc (s n u0 q : List Char)
    (hs : validLowerScheme s)
    (hnd : ∀ c ∈ n, isDelim c = false)
    (hnc : ∀ c ∈ n, unsafeByte c = false)
    (hbr : ¬(('[' ∈ n ∧ ']' ∉ n) ∨ (']' ∈ n ∧ '[' ∉ n)))
    (hu0 : u0 = [] ∨ ∃ t, u0 = '/' :: t)
    (hu0c : ∀ c ∈ u0, unsafeByte c = false)
    (hu0h : '#' ∉ u0) (hu0q : '?' ∉ u0)
    (hqc : ∀ c ∈ q, unsafeByte c = false) (hqh : '#' ∉ q) :
    urlsplitCore (s ++ ':' :: '/' :: '/' :: ((n ++ u0) ++ queryTail q)) =
      .ok { scheme := s, netloc := n, path := u0, query := q
            fragment := [] } := by
  have hqt : ∀ c ∈ queryTail q, unsafeByte c = false ∧ c ≠ '#' := by
    intro c hc
    rcases mem_queryTail q c hc with he | hm
    · subst he
      exact ⟨by decide, by decide⟩
    · exact ⟨hqc c hm, fun he => hqh (he ▸ hm)⟩
  have hclean : ∀ c ∈ (s ++ ':' :: '/' :: '/' :: ((n ++ u0) ++ queryTail q)),
      unsafeByte c = false := by
    intro c hc
    rcases List.mem_append.mp hc with hm | hm
    · exact schemeChar_clean c (hs.2.1 c hm)
    · rcases List.mem_cons.mp hm with he | hm
      · subst he; decide
      rcases List.mem_cons.mp hm with he | hm
      · subst he; decide
      rcases List.mem_cons.mp hm with he | hm
      · subst he; decide
      rcases List.mem_append.mp hm with hm2 | hm2
      · rcases List.mem_append.mp hm2 with hm3 | hm3
        · exact hnc c hm3
        · exact hu0c c hm3
      · exact (hqt c hm2).1
  have hsan : sanitizeUrl (s ++ ':' :: '/' :: '/' :: ((n ++ u0) ++ queryTail q))
      = s ++ ':' :: '/' :: '/' :: ((n ++ u0) ++ queryTail q) := by
    apply sanitizeUrl_eq_self _ _ hclean
    intro c t hct
    obtain ⟨c0, cs0, hs0, halpha⟩ := hs.1
    rw [hs0, List.cons_append] at hct
    rw [List.cons.injEq] at hct
    rw [hct.1] at halpha
    exact isAsciiAlpha_not_c0 c halpha
  have hhq : '#' ∉ u0 ++ queryTail q := by
    intro hm
    rcases List.mem_append.mp hm with hm2 | hm2
    · exact hu0h hm2
    · exact (hqt _ hm2).2 rfl
  have htd : takeUntilDelim ((n ++ u0) ++ queryTail q)
      = (n, u0 ++ queryTail q) := by
    rw [List.append_assoc]
    rcases hu0 with hu0e | ⟨t, hu0e⟩
    · subst hu0e
      rw [List.nil_append]
      by_cases hq0 : q = []
      · subst hq0
        show takeUntilDelim (n ++ queryTail []) = (n, queryTail [])
        have hqe : queryTail [] = [] := by simp [queryTail]
        rw [hqe, List.append_nil]
        exact takeUntilDelim_all n hnd
      · have hqe : queryTail q = '?' :: q := by simp [queryTail, hq0]
        rw [hqe]
        exact takeUntilDelim_append n '?' q hnd (by decide)
    · subst hu0e
      rw [List.cons_append]
      exact takeUntilDelim_append n '/' (t ++ queryTail q) hnd (by decide)
  have hquery : querySplit (u0 ++ queryTail q) = (u0, q) := by
    by_cases hq0 : q = []
    · subst hq0
      have hqe : queryTail ([] : List Char) = [] := by simp [queryTail]
      rw [hqe, List.append_nil]
      exact querySplit_no_q u0 hu0q
    · have hqe : queryTail q = '?' :: q := by simp [queryTail, hq0]
      rw [hqe]
      exact querySplit_append u0 q hu0q
  rw [urlsplitCore_stages, hsan, splitScheme_append s _ hs]
  dsimp only
  rw [netlocSplit_double_slash, htd]
  dsimp only
  rw [if_neg hbr, fragSplit_no_hash _ hhq]
  dsimp only
  rw [hquery]

/-- Re-splitting a reassembled URL without a netloc section recovers
its components. -/
theorem reparse_plain (s p q : List Char)
    (hs : validLowerScheme s)
    (hds : noDS p = true)
    (hpc : ∀ c ∈ p, unsafeByte c = false)
    (hph : '#' ∉ p) (hpq : '?' ∉ p)
    (hqc : ∀ c ∈ q, unsafeByte c = false) (hqh : '#' ∉ q) :
    urlsplitCore (s ++ ':' :: (p ++ queryTail q)) =
      .ok { scheme := s, netloc := [], path := p, query := q
            fragment := [] } := by
  have hqt : ∀ c ∈ queryTail q, unsafeByte c = false ∧ c ≠ '#' := by
    intro c hc
    rcases mem_queryTail q c hc with he | hm
    · subst he
      exact ⟨by decide, by decide⟩
    · exact ⟨hqc c hm, fun he => hqh (he ▸ hm)⟩
  have hclean : ∀ c ∈ (s ++ ':' :: (p ++ queryTail q)),
      unsafeByte c = false := by
    intro c hc
    rcases List.mem_append.mp hc with hm | hm
    · exact schemeChar_clean c (hs.2.1 c hm)
    · rcases List.mem_cons.mp hm with he | hm
      · subst he; decide
      rcases List.mem_append.mp hm with hm2 | hm2
      · exact hpc c hm2
      · exact (hqt c hm2).1
  have hsan : sanitizeUrl (s ++ ':' :: (p ++ queryTail q))
      = s ++ ':' :: (p ++ queryTail q) := by
    apply sanitizeUrl_eq_self _ _ hclean
    intro c t hct
    obtain ⟨c0, cs0, hs0, halpha⟩ := hs.1
    rw [hs0, List.cons_append] at hct
    rw [List.cons.injEq] at hct
    rw [hct.1] at halpha
    exact isAsciiAlpha_not_c0 c halpha
  have hhq : '#' ∉ p ++ queryTail q := by
    intro hm
    rcases List.mem_append.mp hm with hm2 | hm2
    · exact hph hm2
    · exact (hqt _ hm2).2 rfl
  have hquery : querySplit (p ++ queryTail q) = (p, q) := by
    by_cases hq0 : q = []
    · subst hq0
      have hqe : queryTail ([] : List Char) = [] := by simp [queryTail]
      rw [hqe, List.append_nil]
      exact querySplit_no_q p hpq
    · have hqe : queryTail q = '?' :: q := by simp [queryTail, hq0]
      rw [hqe]
      exact querySplit_append p q hpq
  rw [urlsplitCore_stages, hsan, splitScheme_append s _ hs]
  dsimp only
  rw [netlocSplit_no_slash _ (take_two_ne p hds q)]
  dsimp only
  rw [if_neg (by simp), fragSplit_no_hash _ hhq]
  dsimp only
  rw [hquery]

/-- `urlunsplit` with a netloc section, written linearly. -/
theorem urlunsplit_true (s n p q : List Char) (hs : s ≠ [])
    (hcond : n ≠ [] ∨ (s ≠ [] ∧ String.mk s ∈ usesNetlocStr ∧
      p.take 2 ≠ ['/', '/'])) :
    urlunsplitCore s n p q [] =
      s ++ ':' :: '/' :: '/' :: ((n ++ slashPath p) ++ queryTail q) := by
  unfold urlunsplitCore slashPath queryTail
  dsimp only
  rw [if_pos hcond, if_pos hs]
  by_cases hq : q ≠ []
  · rw [if_pos hq, if_pos hq, if_neg (by simp)]
    simp [List.append_assoc]
  · rw [if_neg hq, if_neg hq, if_neg (by simp)]
    simp

/-- `urlunsplit` without a netloc section, written linearly. -/
theorem urlunsplit_false (s n p q : List Char) (hs : s ≠ [])
    (hcond : ¬(n ≠ [] ∨ (s ≠ [] ∧ String.mk s ∈ usesNetlocStr ∧
      p.take 2 ≠ ['/', '/']))) :
    urlunsplitCore s n p q [] = s ++ ':' :: (p ++ queryTail q) := by
  unfold urlunsplitCore queryTail
  dsimp only
  rw [if_neg hcond, if_pos hs]
  by_cases hq : q ≠ []
  · rw [if_pos hq, if_pos hq, if_neg (by simp)]
    simp [List.append_assoc]
  · rw [if_neg hq, if_neg hq, if_neg (by simp)]
    simp

/-- `buildNormalized` spelled via `urlunsplit` on the normalized
path (empty params). -/
theorem buildNormalized_eq (r : UrlParseResult) (hparams : r.params = []) :
    buildNormalized r =
      urlunsplitCore r.scheme r.netloc
        (stripTrailingSlash (collapseSlashes r.path)) r.query [] := by
  unfold buildNormalized urlunparseCore
  dsimp only
  rw [hparams]
  simp

/-- The adjusted normalized path is itself a fixed point of
collapse-then-strip. -/
theorem normPath_slashPath (p0 : List Char) :
    stripTrailingSlash (collapseSlashes
      (slashPath (stripTrailingSlash (collapseSlashes p0))))
    = slashPath (stripTrailingSlash (collapseSlashes p0)) := by
  have hnds : noDS (stripTrailingSlash (collapseSlashes p0)) = true :=
    noDS_stripTrailingSlash _ (noDS_collapseSlashes p0)
  have hsp : noDS (slashPath (stripTrailingSlash (collapseSlashes p0))) = true :=
    noDS_slashPath _ hnds
  rw [collapseSlashes_eq_self _ hsp]
  apply stripTrailingSlash_eq_self
  rintro ⟨hlen, hlast⟩
  by_cases hc : stripTrailingSlash (collapseSlashes p0) ≠ [] ∧
      (stripTrailingSlash (collapseSlashes p0)).take 1 ≠ ['/']
  · have he : slashPath (stripTrailingSlash (collapseSlashes p0))
        = '/' :: stripTrailingSlash (collapseSlashes p0) := by
      unfold slashPath
      rw [if_pos hc]
    rw [he] at hlast
    have hgl : ('/' :: stripTrailingSlash (collapseSlashes p0)).getLast?
        = (stripTrailingSlash (collapseSlashes p0)).getLast? := by
      show (['/'] ++ stripTrailingSlash (collapseSlashes p0)).getLast? = _
      rw [List.getLast?_append,
        List.getLast?_eq_getLast (stripTrailingSlash (collapseSlashes p0)) hc.1]
      rfl
    rw [hgl] at hlast
    have hroot := stripTrailingSlash_last (collapseSlashes p0)
      (noDS_collapseSlashes p0) hlast
    apply hc.2
    rw [hroot]
    rfl
  · have he : slashPath (stripTrailingSlash (collapseSlashes p0))
        = stripTrailingSlash (collapseSlashes p0) := by
      unfold slashPath
      rw [if_neg hc]
    rw [he] at hlast hlen
    have hroot := stripTrailingSlash_last (collapseSlashes p0)
      (noDS_collapseSlashes p0) hlast
    rw [hroot] at hlen
    simp at hlen

/-- The `urlparse` form of `reparse_netloc` (semicolon-free path gives
empty params). -/
theorem reparse_parse_netloc (s n u0 q : List Char)
    (hs : validLowerScheme s)
    (hnd : ∀ c ∈ n, isDelim c = false)
    (hnc : ∀ c ∈ n, unsafeByte c = false)
    (hbr : ¬(('[' ∈ n ∧ ']' ∉ n) ∨ (']' ∈ n ∧ '[' ∉ n)))
    (hu0 : u0 = [] ∨ ∃ t, u0 = '/' :: t)
    (hu0c : ∀ c ∈ u0, unsafeByte c = false)
    (hu0h : '#' ∉ u0) (hu0q : '?' ∉ u0) (hu0s : ';' ∉ u0)
    (hqc : ∀ c ∈ q, unsafeByte c = false) (hqh : '#' ∉ q) :
    urlparseCore (s ++ ':' :: '/' :: '/' :: ((n ++ u0) ++ queryTail q)) =
      .ok { scheme := s, netloc := n, path := u0, params := []
            query := q, fragment := [] } := by
  unfold urlparseCore
  rw [reparse_netloc s n u0 q hs hnd hnc hbr hu0 hu0c hu0h hu0q hqc hqh]
  dsimp only
  rw [if_neg (fun hand => hu0s hand.2)]

/-- The `urlparse` form of `reparse_plain`. -/
theorem reparse_parse_plain (s p q : List Char)
    (hs : validLowerScheme s)
    (hds : noDS p = true)
    (hpc : ∀ c ∈ p, unsafeByte c = false)
    (hph : '#' ∉ p) (hpq : '?' ∉ p) (hpsemi : ';' ∉ p)
    (hqc : ∀ c ∈ q, unsafeByte c = false) (hqh : '#' ∉ q) :
    urlparseCore (s ++ ':' :: (p ++ queryTail q)) =
      .ok { scheme := s, netloc := [], path := p, params := []
            query := q, fragment := [] } := by
  unfold urlparseCore
  rw [reparse_plain s p q hs hds hpc hph hpq hqc hqh]
  dsimp only
  rw [if_neg (fun hand => hpsemi hand.2)]

/-- The reassembled normalized URL is a fixed point of
`normalize_url` whenever its components satisfy the parse invariants
and the scheme is non-empty. -/
theorem normalizeUrl_buildNormalized (r : UrlParseResult)
    (hinv : ParseInv r) (hv : validLowerScheme r.scheme) :
    normalizeUrlCore (buildNormalized r) = buildNormalized r := by
  have hsne : r.scheme ≠ [] := by
    obtain ⟨c0, cs0, h0, _⟩ := hv.1
    rw [h0]
    simp
  have hPnds : noDS (stripTrailingSlash (collapseSlashes r.path)) = true :=
    noDS_stripTrailingSlash _ (noDS_collapseSlashes _)
  have hPmem : ∀ c ∈ stripTrailingSlash (collapseSlashes r.path),
      c ∈ r.path :=
    fun c hc => mem_collapseSlashes _ c (mem_stripTrailingSlash _ c hc)
  have hPc : ∀ c ∈ stripTrailingSlash (collapseSlashes r.path),
      unsafeByte c = false := fun c hc => hinv.path_clean c (hPmem c hc)
  have hPh : '#' ∉ stripTrailingSlash (collapseSlashes r.path) :=
    fun hm => hinv.path_hash (hPmem _ hm)
  have hPq : '?' ∉ stripTrailingSlash (collapseSlashes r.path) :=
    fun hm => hinv.path_q (hPmem _ hm)
  have hPs : ';' ∉ stripTrailingSlash (collapseSlashes r.path) :=
    fun hm => hinv.path_semi (hPmem _ hm)
  rw [buildNormalized_eq r hinv.params_nil]
  by_cases hcond : r.netloc ≠ [] ∨ (r.scheme ≠ [] ∧
      String.mk r.scheme ∈ usesNetlocStr ∧
      (stripTrailingSlash (collapseSlashes r.path)).take 2 ≠ ['/', '/'])
  · rw [urlunsplit_true r.scheme r.netloc
      (stripTrailingSlash (collapseSlashes r.path)) r.query hsne hcond]
    unfold normalizeUrlCore
    have hu0 := slashPath_shape (stripTrailingSlash (collapseSlashes r.path))
    have hu0c : ∀ c ∈ slashPath (stripTrailingSlash (collapseSlashes r.path)),
        unsafeByte c = false := by
      intro c hc
      rcases mem_slashPath _ c hc with he | hm
      · subst he; decide
      · exact hPc c hm
    have hu0h : '#' ∉ slashPath (stripTrailingSlash (collapseSlashes r.path)) := by
      intro hm
      rcases mem_slashPath _ _ hm with he | hm2
      · exact absurd he (by decide)
      · exact hPh hm2
    have hu0q : '?' ∉ slashPath (stripTrailingSlash (collapseSlashes r.path)) := by
      intro hm
      rcases mem_slashPath _ _ hm with he | hm2
      · exact absurd he (by decide)
      · exact hPq hm2
    have hu0s : ';' ∉ slashPath (stripTrailingSlash (collapseSlashes r.path)) := by
      intro hm
      rcases mem_slashPath _ _ hm with he | hm2
      · exact absurd he (by decide)
      · exact hPs hm2
    rw [reparse_parse_netloc r.scheme r.netloc
      (slashPath (stripTrailingSlash (collapseSlashes r.path))) r.query
      hv hinv.netloc_delim hinv.netloc_clean hinv.netloc_brackets
      hu0 hu0c hu0h hu0q hu0s hinv.query_clean hinv.query_hash]
    dsimp only
    rw [if_neg hsne]
    rw [buildNormalized_eq _ rfl]
    dsimp only
    rw [normPath_slashPath r.path]
    have hcond2 : r.netloc ≠ [] ∨ (r.scheme ≠ [] ∧
        String.mk r.scheme ∈ usesNetlocStr ∧
        (slashPath (stripTrailingSlash (collapseSlashes r.path))).take 2
          ≠ ['/', '/']) := by
      rcases hcond with h1 | ⟨h1, h2, _⟩
      · exact Or.inl h1
      · exact Or.inr ⟨h1, h2, noDS_take2 _ (noDS_slashPath _ hPnds)⟩
    rw [urlunsplit_true _ _ _ _ hsne hcond2]
    rw [slashPath_idem]
  · rw [urlunsplit_false r.scheme r.netloc
      (stripTrailingSlash (collapseSlashes r.path)) r.query hsne hcond]
    unfold normalizeUrlCore
    rw [reparse_parse_plain r.scheme
      (stripTrailingSlash (collapseSlashes r.path)) r.query
      hv hPnds hPc hPh hPq hPs hinv.query_clean hinv.query_hash]
    dsimp only
    rw [if_neg hsne]
    rw [buildNormalized_eq _ rfl]
    dsimp only
    rw [normPath_idem r.path]
    have hcond2 : ¬(([] : List Char) ≠ [] ∨ (r.scheme ≠ [] ∧
        String.mk r.scheme ∈ usesNetlocStr ∧
        (stripTrailingSlash (collapseSlashes r.path)).take 2
          ≠ ['/', '/'])) := by
      rintro (h1 | ⟨_, h2, _⟩)
      · exact h1 rfl
      · exact (not_or.mp hcond).2 ⟨hsne, h2, noDS_take2 _ hPnds⟩
    rw [urlunsplit_false _ _ _ _ hsne hcond2]

/-- Sanitizing an `https://`-prefixed string keeps the prefix and
filters the rest. -/
theorem sanitizeUrl_https (u : List Char) :
    sanitizeUrl ('h' :: 't' :: 't' :: 'p' :: 's' :: ':' :: '/' :: '/' :: u)
      = 'h' :: 't' :: 't' :: 'p' :: 's' :: ':' :: '/' :: '/' :: 
          (u.filter (fun c => !(unsafeByte c))) := rfl

/-- Parsing after the `https://` prepend always finds the scheme
`https`. -/
theorem urlparse_https_scheme (u : List Char) (r : UrlParseResult)
    (h : urlparseCore ('h' :: 't' :: 't' :: 'p' :: 's' :: ':' :: '/' :: '/' :: u) = .ok r) :
    r.scheme = ['h', 't', 't', 'p', 's'] := by
  have hvh : validLowerScheme ['h', 't', 't', 'p', 's'] :=
    ⟨⟨'h', ['t', 't', 'p', 's'], rfl, by decide⟩, by decide, by decide⟩
  rw [urlparseCore_scheme _ r h, sanitizeUrl_https]
  have he : ('h' :: 't' :: 't' :: 'p' :: 's' :: ':' :: '/' :: '/' :: 
      (u.filter (fun c => !(unsafeByte c))))
      = ['h', 't', 't', 'p', 's'] ++ ':' ::
        ('/' :: '/' :: (u.filter (fun c => !(unsafeByte c)))) := rfl
  rw [he, splitScheme_append _ _ hvh]

/-- `normalize_url` is idempotent on semicolon-free inputs. -/
theorem normalizeUrlCore_idem (u : List Char) (hsemi : ';' ∉ u) :
    normalizeUrlCore (normalizeUrlCore u) = normalizeUrlCore u := by
  cases hp : urlparseCore u with
  | error e =>
      have h1 : normalizeUrlCore u = u := by
        unfold normalizeUrlCore
        rw [hp]
      rw [h1]
      exact h1
  | ok r =>
      by_cases hsch : r.scheme = []
      · cases hp2 : urlparseCore ('h' :: 't' :: 't' :: 'p' :: 's' :: ':' :: '/' :: '/' :: u) with
        | error e2 =>
            have h1 : normalizeUrlCore u
                = ('h' :: 't' :: 't' :: 'p' :: 's' :: ':' :: '/' :: '/' :: u) := by
              unfold normalizeUrlCore
              rw [hp]
              dsimp only
              rw [if_pos hsch]
              rw [hp2]
            rw [h1]
            unfold normalizeUrlCore
            rw [hp2]
        | ok r2 =>
            have h1 : normalizeUrlCore u = buildNormalized r2 := by
              unfold normalizeUrlCore
              rw [hp]
              dsimp only
              rw [if_pos hsch]
              rw [hp2]
            rw [h1]
            have hsemi2 : ';' ∉ ('h' :: 't' :: 't' :: 'p' :: 's' :: ':' :: '/' :: '/' :: u) := by
              intro hm
              simp only [List.mem_cons] at hm
              rcases hm with h | h | h | h | h | h | h | h | h
              · exact absurd h (by decide)
              · exact absurd h (by decide)
              · exact absurd h (by decide)
              · exact absurd h (by decide)
              · exact absurd h (by decide)
              · exact absurd h (by decide)
              · exact absurd h (by decide)
              · exact absurd h (by decide)
              · exact hsemi h
            have hinv2 := urlparseCore_inv _ r2 hsemi2 hp2
            have hv2 : validLowerScheme r2.scheme := by
              rw [urlparse_https_scheme u r2 hp2]
              exact ⟨⟨'h', ['t', 't', 'p', 's'], rfl, by decide⟩,
                by decide, by decide⟩
            exact normalizeUrl_buildNormalized r2 hinv2 hv2
      · have h1 : normalizeUrlCore u = buildNormalized r := by
          unfold normalizeUrlCore
          rw [hp]
          dsimp only
          rw [if_neg hsch]
        rw [h1]
        have hinv := urlparseCore_inv u r hsemi hp
        exact normalizeUrl_buildNormalized r hinv
          (Or.resolve_left hinv.scheme_ok hsch)

/-- C7 counterexamples to the claim as stated.  Idempotence fails on a
URL whose path has semicolons straddling the last slash: normalizing
`http://h/a/;x/;y` yields `http://h/a/;x;y`, and normalizing again
yields `http://h/a;x;y` (the trailing-slash strip moves a `;` across
the last `/`, changing where `urlparse` splits the params).  And on
the input `[`, whose first parse succeeds with an empty scheme but
whose reparse after the `https://` prepend raises (mismatched
bracket), the function returns `https://[` — not the input
unchanged. -/
theorem normalize_url_not_idempotent :
    normalize_url (normalize_url "http://h/a/;x/;y")
        ≠ normalize_url "http://h/a/;x/;y" ∧
      normalize_url "[" ≠ "[" := by
  constructor
  · decide
  · decide

/-- C7 (amended): `normalize_url` is idempotent on every input whose
text contains no semicolon; the claim's example normalizes as stated
(fragment dropped, duplicate slashes collapsed, trailing slash
stripped); a parse error on the original input returns it unchanged;
and when the input parses with an empty scheme but the reparse after
the `https://` prepend fails, the prepended string is returned. -/
theorem normalize_url_semifree_idempotent (u : String)
    (hsemi : ';' ∉ u.data) :
    normalize_url (normalize_url u) = normalize_url u ∧
    normalize_url "http://x.com//a//b/#frag" = "http://x.com/a/b" ∧
    (∀ v : String, urlparseCore v.data = .error () → normalize_url v = v) ∧
    (∀ (v : String) (r : UrlParseResult), urlparseCore v.data = .ok r →
      r.scheme = [] →
      urlparseCore ('h' :: 't' :: 't' :: 'p' :: 's' :: ':' :: '/' :: '/' :: v.data)
        = .error () →
      normalize_url v
        = String.mk ('h' :: 't' :: 't' :: 'p' :: 's' :: ':' :: '/' :: '/' :: v.data)) := by
  refine ⟨congrArg String.mk (normalizeUrlCore_idem u.data hsemi),
    by decide, ?_, ?_⟩
  · intro v hv
    show String.mk (normalizeUrlCore v.data) = v
    unfold normalizeUrlCore
    rw [hv]
  · intro v r hok hsch herr
    show String.mk (normalizeUrlCore v.data) = _
    unfold normalizeUrlCore
    rw [hok]
    dsimp only
    rw [if_pos hsch]
    rw [herr]

/-- Witness: the amended idempotence theorem applied to the claim's
own example URL (which is semicolon-free). -/
theorem normalize_url_semifree_idempotent_witness :
    normalize_url (normalize_url "http://x.com//a//b/#frag")
      = normalize_url "http://x.com//a//b/#frag" :=
  (normalize_url_semifree_idempotent "http://x.com//a//b/#frag"
    (by decide)).1

end BrowserResearch
